import Mathlib

/-!
# Verification of the Kmap-Solver minimization engine

Shallow embedding of the core of the `ValleyC/Kmap-Solver` repository:

* `js/simplifier.js` — `KMapSimplifier`: `simplify`, `quineMcCluskey`,
  `groupByOnes`, `combineBinary`, `findEssentialPrimeImplicants`,
  `convertToSOP`, `convertToPOS`;
* `js/kmap.js` — `KarnaughMap`: the grid placement of assignment indices
  performed by `create2VarKMap` … `create6VarKMap`, and the variable-count
  validation in `generate`;
* `js/truthTable.js` — `TruthTableGenerator.generateFromOutputs`.

Bit-pattern strings such as `"10-1"` are modelled as `List Char` over the
alphabet `{'0','1','-'}`; JS arrays become `List`; JS objects holding a cube
become the `Term` structure.  Exceptions (`throw new Error`) become `Except
String`.  The JS `while` loops are modelled by structurally recursive
functions whose fuel matches the loop's own bound (`iteration < numVars` for
the Quine–McCluskey pass loop, the length of the uncovered list for the
greedy cover loop, whose body strictly shrinks that list).
-/

set_option maxHeartbeats 4000000
set_option maxRecDepth 4000

namespace KmapSolver

/-- The ASCII apostrophe used by `convertToSOP`/`convertToPOS` to print a
complemented literal (written via its code point to keep it out of the
surrounding text). -/
def primeStr : String := String.singleton (Char.ofNat 39)

/-- The `k`-th binary digit of `m` as a character, i.e. the character that
`m.toString(2)` puts at the position of weight `2^k`. -/
def bitChar (m k : Nat) : Char :=
  if m / 2 ^ k % 2 = 1 then '1' else '0'

/-- `m.toString(2).padStart(n, '0')` for `m < 2^n`: the `n`-bit,
most-significant-bit-first binary expansion of `m` as characters.
(For `m ≥ 2^n` the JS string would be longer than `n`; every call site in
the repository reaches this function with validated `m < 2^n`.) -/
def natToBits (n m : Nat) : List Char :=
  (List.range n).map (fun i => bitChar m (n - 1 - i))

/-- Does a cube pattern cover the assignment whose bit string is `bits`?
A `'-'` position matches anything, any other position must agree.  Used to
reason about which assignment indices a cube represents (the JS code keeps
this information in the `minterms` field of each term object). -/
def cubeMatches : List Char → List Char → Bool
  | [], [] => true
  | p :: ps, b :: bs => (if p = '-' then true else if p = b then true else false) && cubeMatches ps bs
  | _, _ => false

/-- The scanning loop of `combineBinary` (`simplifier.js` lines 157-167):
walks both strings in parallel, returning `none` on the early
`return null` taken when a differing position holds a `'-'`, and otherwise
the number of differing positions together with the last differing
position (`differences` / `diffPos` in the source; `diffPos` is only read
when `differences === 1`). -/
def scanDiffs : List Char → List Char → Option (Nat × Nat)
  | [], [] => some (0, 0)
  | a :: as, b :: bs =>
      if a = b then
        match scanDiffs as bs with
        | none => none
        | some (d, p) => some (d, p + 1)
      else if a = '-' ∨ b = '-' then none
      else
        match scanDiffs as bs with
        | none => none
        | some (d, p) => some (d + 1, if d = 0 then 0 else p + 1)
  | _, _ => none

/-- `KMapSimplifier.combineBinary` (`simplifier.js` lines 157-174): merge two
patterns that differ in exactly one non-`'-'` position, replacing that
position by `'-'` (the JS `substring(0,p) + '-' + substring(p+1)` is
`List.set p '-'`).  The JS loop runs over `bin1.length`; the repository only
ever compares equal-length patterns, and for unequal lengths our scan
returns `none`. -/
def combineBinary (bin1 bin2 : List Char) : Option (List Char) :=
  match scanDiffs bin1 bin2 with
  | none => none
  | some (d, p) => if d = 1 then some (bin1.set p '-') else none

/-- A term object of `quineMcCluskey`: `{ binary, minterms, used }`. -/
structure Term where
  binary : List Char
  minterms : List Nat
  used : Bool
deriving DecidableEq, Repr

/-- Number of `'1'` characters in a pattern (`(binary.match(/1/g)||[]).length`). -/
def onesCount (t : Term) : Nat := t.binary.countP (fun c => c = '1')

/-- Number of `'-'` characters in a pattern. -/
def dashCount (l : List Char) : Nat := l.countP (fun c => c = '-')

/-- `[...new Set([...a, ...b])]`: concatenation deduplicated keeping first
occurrences (JS `Set` preserves insertion order). -/
def dedupKeepFirst (l : List Nat) : List Nat :=
  l.foldl (fun acc m => if m ∈ acc then acc else acc ++ [m]) []

/-- `KMapSimplifier.groupByOnes` (`simplifier.js` lines 140-149): bucket the
terms by their count of `'1'`s and return the non-empty buckets in
ascending key order (JS integer-like object keys enumerate in ascending
numeric order, and the explicit `sort((a,b) => a-b)` keeps them so). -/
def groupByOnes (terms : List Term) : List (List Term) :=
  ((List.range (terms.foldr (fun t acc => max (onesCount t) acc) 0 + 1)).filter
      (fun c => terms.any (fun t => onesCount t = c))).map
    (fun c => terms.filter (fun t => onesCount t = c))

/-- The ordered list of `(term1, term2)` pairs the merge pass tries
(`simplifier.js` lines 88-93): every `term1` of a bucket with every `term2`
of the next bucket, buckets taken in ascending order. -/
def attempts (groups : List (List Term)) : List (Term × Term) :=
  (groups.zip groups.tail).flatMap
    (fun g => g.1.flatMap (fun t1 => g.2.map (fun t2 => (t1, t2))))

/-- The `newTerms` array built by one merge pass (`simplifier.js` lines
94-110): for each attempted pair that combines, push a fresh term (combined
pattern, union of the two minterm lists via a `Set`, `used:false`) unless a
term with that pattern is already present. -/
def buildNewStep (acc : List Term) (p : Term × Term) : List Term :=
  match combineBinary p.1.binary p.2.binary with
  | none => acc
  | some c =>
      if acc.any (fun t => t.binary = c) then acc
      else acc ++ [⟨c, dedupKeepFirst (p.1.minterms ++ p.2.minterms), false⟩]

def buildNew (atts : List (Term × Term)) : List Term :=
  atts.foldl buildNewStep []

/-- The in-place `term1.used = true; term2.used = true` marking of a pass
(`simplifier.js` lines 96-97), applied to the whole `terms` array: a term is
marked used exactly when it occurs in some attempted pair that combines
successfully.  (All term records in a pass carry pairwise distinct
patterns — the initial minterms are distinct and `buildNew` deduplicates —
so record equality coincides with JS object identity here.) -/
def markUsed (terms : List Term) (atts : List (Term × Term)) : List Term :=
  terms.map
    (fun t =>
      if atts.any
          (fun p => (combineBinary p.1.binary p.2.binary).isSome && (p.1 = t ∨ p.2 = t))
        then { t with used := true }
        else t)

/-- One iteration of the `while` loop of `quineMcCluskey`: returns the
`terms` array after the `used` mutations together with `newTerms`. -/
def qmStep (terms : List Term) : List Term × List Term :=
  let atts := attempts (groupByOnes terms)
  (markUsed terms atts, buildNew atts)

/-- The `while (iteration < numVars)` loop of `quineMcCluskey`
(`simplifier.js` lines 80-132) together with the trailing
`terms.forEach(... push ...)` after the loop.  Each executed pass pushes the
unused terms of the (mutated) current array onto `primeImplicants` (lines
116-120); on `break` (no new terms) the same array is scanned *again* by the
post-loop push (lines 128-132), so those terms are appended twice; when the
fuel `numVars` runs out the post-loop push appends the freshly produced
terms (all still unused) once. -/
def qmLoop : Nat → List Term → List Term
  | 0, terms => terms.filter (fun t => !t.used)
  | fuel + 1, terms =>
      let s := qmStep terms
      let primesHere := s.1.filter (fun t => !t.used)
      if s.2.isEmpty then primesHere ++ primesHere
      else primesHere ++ qmLoop fuel s.2

/-- `KMapSimplifier.quineMcCluskey` (`simplifier.js` lines 69-135). -/
def quineMcCluskey (minterms : List Nat) (numVars : Nat) : List Term :=
  qmLoop numVars (minterms.map (fun m => ⟨natToBits numVars m, [m], false⟩))

/-- Instrumented copy of `qmLoop` that additionally reports how many merge
passes were executed and whether the loop stopped through the
`if (newTerms.length === 0) break;` early exit. -/
def qmLoopCount : Nat → List Term → List Term × Nat × Bool
  | 0, terms => (terms.filter (fun t => !t.used), 0, false)
  | fuel + 1, terms =>
      let s := qmStep terms
      let primesHere := s.1.filter (fun t => !t.used)
      if s.2.isEmpty then (primesHere ++ primesHere, 1, true)
      else
        let r := qmLoopCount fuel s.2
        (primesHere ++ r.1, r.2.1 + 1, r.2.2)

/-- The coverage map of `findEssentialPrimeImplicants` (`simplifier.js`
lines 183-195): for a required minterm `m`, the list of positions (in the
prime-implicant array) of the implicants whose `minterms` field contains
`m`, in ascending position order (the JS `forEach` pushes in array order). -/
def coverageList (pis : List Term) (m : Nat) : List Nat :=
  (pis.enum.filter (fun p => m ∈ p.2.minterms)).map (fun p => p.1)

/-- Insert into a sorted duplicate-free list of naturals. -/
def insertSorted (m : Nat) : List Nat → List Nat
  | [] => [m]
  | x :: xs => if m < x then m :: x :: xs else if m = x then x :: xs else x :: insertSorted m xs

/-- Ascending duplicate-free sort: JS objects with integer-like keys (such
as the `coverage` object) enumerate their keys in ascending numeric order,
each key once. -/
def sortNatDedup (l : List Nat) : List Nat := l.foldr insertSorted []

/-- The `essentialIndices` set and `essentialPIs` array (`simplifier.js`
lines 198-206): collect, over the coverage map's keys in ascending order,
the unique covering index of every singleton coverage list, deduplicated in
insertion order, and map the indices back to the prime implicants. -/
def essentialPart (pis : List Term) (minterms : List Nat) : List Term :=
  (dedupKeepFirst
      ((sortNatDedup minterms).filterMap
        (fun m =>
          match coverageList pis m with
          | [i] => some i
          | _ => none))).map
    (fun i => pis.getD i ⟨[], [], false⟩)

/-- JS `array.includes(x)` on term arrays (object identity; record equality
is faithful here, see `markUsed`). -/
def includesTerm (l : List Term) (t : Term) : Bool :=
  l.any (fun a => a = t)

/-- Number of still-uncovered minterms an implicant would cover
(`pi.minterms.filter(m => uncovered.includes(m)).length`). -/
def countRemaining (t : Term) (uncovered : List Nat) : Nat :=
  (t.minterms.filter (fun m => m ∈ uncovered)).length

/-- The best-candidate scan of one greedy iteration (`simplifier.js` lines
219-230): fold over the prime implicants keeping the first implicant whose
remaining coverage strictly exceeds the running maximum (initially `null`
with maximum `0`), skipping implicants already selected. -/
def selectBestStep (essentialPIs additional : List Term) (uncovered : List Nat)
    (acc : Option Term × Nat) (pi : Term) : Option Term × Nat :=
  if !includesTerm essentialPIs pi && !includesTerm additional pi then
    if countRemaining pi uncovered > acc.2 then (some pi, countRemaining pi uncovered)
    else acc
  else acc

def selectBest (pis essentialPIs additional : List Term) (uncovered : List Nat) :
    Option Term :=
  (pis.foldl (selectBestStep essentialPIs additional uncovered) (none, 0)).1

/-- The `while (uncovered.length > 0)` greedy loop (`simplifier.js` lines
218-241).  The fuel is the length of the uncovered list: every executed
iteration removes at least one uncovered minterm (the selected implicant has
remaining coverage `> 0`), so the fuel never runs out before the JS loop
would stop.  The JS `splice` removal of each covered minterm is `filter`
(the uncovered list never holds duplicates: it is filtered from the
caller-supplied minterm list). -/
def greedyLoop (pis essentialPIs : List Term) :
    Nat → List Term → List Nat → List Term
  | 0, additional, _ => additional
  | fuel + 1, additional, uncovered =>
      if uncovered.isEmpty then additional
      else
        match selectBest pis essentialPIs additional uncovered with
        | none => additional
        | some best =>
            greedyLoop pis essentialPIs fuel (additional ++ [best])
              (uncovered.filter (fun m => !(m ∈ best.minterms)))

/-- `KMapSimplifier.findEssentialPrimeImplicants` (`simplifier.js` lines
182-244): essential implicants (unique coverers) followed by the greedy
completion for the minterms they leave uncovered. -/
def findEssentialPrimeImplicants (pis : List Term) (minterms : List Nat) : List Term :=
  let essentialPIs := essentialPart pis minterms
  let uncovered :=
    minterms.filter (fun m => !(essentialPIs.any (fun pi => m ∈ pi.minterms)))
  essentialPIs ++ greedyLoop pis essentialPIs uncovered.length [] uncovered

/-- The product term `convertToSOP` renders for one implicant
(`simplifier.js` lines 255-266): per position, `'1'` prints the variable,
`'0'` prints the variable postfixed with an apostrophe, `'-'` prints
nothing; an empty product renders as `"1"`. -/
def sopTerm (vars : List String) (binary : List Char) : String :=
  let s :=
    (List.range binary.length).foldl
      (fun s i =>
        if binary.getD i ' ' = '1' then s ++ vars.getD i ""
        else if binary.getD i ' ' = '0' then s ++ vars.getD i "" ++ primeStr
        else s)
      ""
  if s = "" then "1" else s

/-- `KMapSimplifier.convertToSOP` (`simplifier.js` lines 252-269). -/
def convertToSOP (pis : List Term) (vars : List String) : String :=
  if pis.isEmpty then "0"
  else String.intercalate " + " (pis.map (fun pi => sopTerm vars pi.binary))

/-- `KMapSimplifier.convertToPOS` (`simplifier.js` lines 277-289): one sum
term per maxterm, a `'0'` bit printing the plain variable and a `'1'` bit
the complemented one. -/
def convertToPOS (maxterms : List Nat) (vars : List String) : String :=
  if maxterms.isEmpty then "1"
  else
    String.intercalate "·"
      (maxterms.map
        (fun mt =>
          "(" ++
            String.intercalate " + "
              ((natToBits vars.length mt).enum.map
                (fun p =>
                  if p.2 = '0' then vars.getD p.1 ""
                  else vars.getD p.1 "" ++ primeStr)) ++
            ")"))

/-- The K-map object `simplify` consumes (fields read on `simplifier.js`
line 18). -/
structure KMapIn where
  minterms : List Nat
  vars : List String
  numVars : Nat
  dontCares : List Nat := []
deriving Repr

/-- The result object of `simplify`.  (The `groups` field returned on the
non-constant path is a display-only echo of the input minterms —
`findGroups`, lines 296-313 — and is not modelled.) -/
structure SimplifyResult where
  sop : String
  pos : String
  primeImplicants : List Term
  essentialPrimeImplicants : List Term
deriving DecidableEq, Repr

/-- `KMapSimplifier.simplify` (`simplifier.js` lines 17-61). -/
def simplify (kmap : KMapIn) : SimplifyResult :=
  if kmap.minterms.length = 0 then
    { sop := "0", pos := "1", primeImplicants := [], essentialPrimeImplicants := [] }
  else if kmap.minterms.length = 2 ^ kmap.numVars then
    { sop := "1", pos := "0", primeImplicants := [], essentialPrimeImplicants := [] }
  else
    let allOnes := kmap.minterms ++ kmap.dontCares
    let primeImplicants := quineMcCluskey allOnes kmap.numVars
    let essentialPIs := findEssentialPrimeImplicants primeImplicants kmap.minterms
    let sop := convertToSOP essentialPIs kmap.vars
    let maxterms :=
      (List.range (2 ^ kmap.numVars)).filter
        (fun t => !(t ∈ kmap.minterms) && !(t ∈ kmap.dontCares))
    let pos := convertToPOS maxterms kmap.vars
    { sop := sop, pos := pos, primeImplicants := primeImplicants,
      essentialPrimeImplicants := essentialPIs }

/-- Truth value of the SOP expression a `SimplifyResult` carries, at
assignment index `i` of an `n`-variable function.  The rendered SOP string
is a disjunction of product terms, one per selected implicant, each product
true exactly on the assignments its cube pattern covers; the two constant
results `"0"`/`"1"` (which are exactly the results carrying an empty
implicant list) evaluate to the corresponding constant.  Mirrors evaluating
the string with the repository's (out-of-scope) expression parser. -/
def sopEvalAt (r : SimplifyResult) (n i : Nat) : Bool :=
  if r.essentialPrimeImplicants.isEmpty then r.sop = "1"
  else r.essentialPrimeImplicants.any (fun t => cubeMatches t.binary (natToBits n i))

/-- The running invariant of every term record `quineMcCluskey`
manipulates, for an `n`-variable run whose input index list (required
minterms plus don't-cares) is `allOnes`: the pattern has length `n`, its
characters are tri-state, the `minterms` field holds exactly the in-range
assignment indices the pattern covers, and all of them come from the input
list. -/
def TermOK (n : Nat) (allOnes : List Nat) (t : Term) : Prop :=
  t.binary.length = n ∧
  (∀ c ∈ t.binary, c = '0' ∨ c = '1' ∨ c = '-') ∧
  (∀ m : Nat, m ∈ t.minterms ↔ m < 2 ^ n ∧ cubeMatches t.binary (natToBits n m) = true) ∧
  (∀ m ∈ t.minterms, m ∈ allOnes)

/-- Number of non-`'-'` positions of a cube: its literal count (the cost
metric of spec §4.1). -/
def literalCount (t : Term) : Nat := t.binary.countP (fun c => !(c = '-'))

/-- Lexicographic comparison of cube strings by character code (canonical
cube string order). -/
def strLtCh : List Char → List Char → Bool
  | [], [] => false
  | [], _ :: _ => true
  | _ :: _, [] => false
  | a :: as, b :: bs => if a < b then true else if a = b then strLtCh as bs else false

/-- Modelled from the spec: the tie-break the specification prescribes for
the greedy coverage step (§4.4 step 4) — "pick the not-yet-selected
implicant covering the most remaining minterms; break ties by lowest
literal count, then by canonical cube string order".  Returns the candidate
this policy selects, to be compared against the code's `selectBest`. -/
def claimBetter (a b : Term) (uncovered : List Nat) : Bool :=
  if countRemaining a uncovered ≠ countRemaining b uncovered then
    countRemaining a uncovered > countRemaining b uncovered
  else if literalCount a ≠ literalCount b then literalCount a < literalCount b
  else strLtCh a.binary b.binary

/-- Modelled from the spec (§4.4 step 4): among the not-yet-selected
implicants covering at least one remaining minterm, the best one under
`claimBetter`. -/
def claimSelect (pis essentialPIs additional : List Term) (uncovered : List Nat) :
    Option Term :=
  pis.foldl
    (fun acc pi =>
      if !includesTerm essentialPIs pi && !includesTerm additional pi &&
          decide (0 < countRemaining pi uncovered) then
        match acc with
        | none => some pi
        | some b => if claimBetter pi b uncovered then some pi else acc
      else acc)
    none

/-! ## The adjacency grid builder (`js/kmap.js`) -/

/-- The 2-bit reflected Gray sequence `['00','01','11','10']` used
throughout `kmap.js`. -/
def grayCode4 : List (List Char) := [['0','0'], ['0','1'], ['1','1'], ['1','0']]

/-- `grayCode.indexOf(w)` (in-range callers always find their word; the JS
`-1` for a missing word is modelled by `findIdx`'s out-of-range result). -/
def grayIdx (w : List Char) : Nat := grayCode4.findIdx (fun x => x = w)

/-- Where `KarnaughMap.generate` places assignment index `m` of an
`n`-variable map, as `(tile, row, column)`, following `create2VarKMap` …
`create6VarKMap` (`kmap.js` lines 62-283): 2 variables use
`(m / 2, m % 2)`; 3 variables use the leading bit as row and the Gray
position of the trailing two bits as column; 4 variables use Gray positions
of the two halves; 5 and 6 variables select a tile by the leading one or
two bits (the latter through the Gray sequence) and lay the remaining four
bits out as in the 4-variable map. -/
def cellOf (n m : Nat) : Nat × Nat × Nat :=
  match n with
  | 2 => (0, m / 2, m % 2)
  | 3 =>
      (0, if (natToBits 3 m).getD 0 ' ' = '1' then 1 else 0,
        grayIdx ((natToBits 3 m).drop 1))
  | 4 => (0, grayIdx ((natToBits 4 m).take 2), grayIdx ((natToBits 4 m).drop 2))
  | 5 =>
      (if (natToBits 5 m).getD 0 ' ' = '0' then 0 else 1,
        grayIdx (((natToBits 5 m).drop 1).take 2), grayIdx ((natToBits 5 m).drop 3))
  | 6 =>
      (grayIdx ((natToBits 6 m).take 2), grayIdx (((natToBits 6 m).drop 2).take 2),
        grayIdx ((natToBits 6 m).drop 4))
  | _ => (0, 0, 0)

/-- Row count of one tile of the `n`-variable map. -/
def rowsOf (n : Nat) : Nat := if n ≤ 3 then 2 else 4

/-- Column count of one tile of the `n`-variable map. -/
def colsOf (n : Nat) : Nat := if n = 2 then 2 else 4

/-- Tile-selector bit word of tile `t` in the `n`-variable map: the single
leading bit for 5 variables, the Gray word of the leading two bits for 6. -/
def selWord (n t : Nat) : List Char :=
  if n = 5 then [if t = 0 then '0' else '1'] else grayCode4.getD t []

/-- Adjacency of two coordinates along an axis of the given size, including
the wraparound between the first and the last position. -/
def adjWrapIdx (a b size : Nat) : Prop := (a + 1) % size = b ∨ (b + 1) % size = a

/-- Number of positions where two equal-length bit words differ. -/
def diffBits (a b : List Char) : Nat := (a.zip b).countP (fun q => !(q.1 = q.2))

/-- Two tiles are bit-adjacent when their selector words differ in exactly
one bit. -/
def tilesAdjacent (n t1 t2 : Nat) : Prop := diffBits (selWord n t1) (selWord n t2) = 1

/-- The adjacency the claim asserts for the produced grid: same tile and
grid-adjacent (with wraparound) in exactly one coordinate, or same cell in
bit-adjacent tiles. -/
def gridAdjacent (n i j : Nat) : Prop :=
  (cellOf n i).1 = (cellOf n j).1 ∧
    (((cellOf n i).2.1 = (cellOf n j).2.1 ∧
        adjWrapIdx (cellOf n i).2.2 (cellOf n j).2.2 (colsOf n)) ∨
      ((cellOf n i).2.2 = (cellOf n j).2.2 ∧
        adjWrapIdx (cellOf n i).2.1 (cellOf n j).2.1 (rowsOf n))) ∨
  ((cellOf n i).2.1 = (cellOf n j).2.1 ∧ (cellOf n i).2.2 = (cellOf n j).2.2 ∧
    tilesAdjacent n (cellOf n i).1 (cellOf n j).1)

/-- Two assignment indices of an `n`-variable function differ in exactly
one bit. -/
def diffOneBit (n i j : Nat) : Prop := diffBits (natToBits n i) (natToBits n j) = 1

instance (a b size : Nat) : Decidable (adjWrapIdx a b size) := by
  unfold adjWrapIdx; infer_instance

instance (n t1 t2 : Nat) : Decidable (tilesAdjacent n t1 t2) := by
  unfold tilesAdjacent; infer_instance

instance (n i j : Nat) : Decidable (gridAdjacent n i j) := by
  unfold gridAdjacent; infer_instance

instance (n i j : Nat) : Decidable (diffOneBit n i j) := by
  unfold diffOneBit; infer_instance

/-- The variable-count validation of `KarnaughMap.generate` (`kmap.js`
lines 26-28); the remainder of `generate` builds the display grids and
performs no further checks. -/
def kmapGenerateCheck (numVars : Nat) : Except String Unit :=
  if numVars < 2 ∨ numVars > 6 then Except.error "K-map supports 2-6 variables only"
  else Except.ok ()

/-! ## The truth-table generator (`js/truthTable.js`) -/

/-- An entry of the `outputs` argument of `generateFromOutputs`: the number
`0`, the number `1`, or the string `'X'`. -/
inductive OV where
  | zero
  | one
  | X
deriving DecidableEq, Repr

/-- The truth-table value returned by `generateFromOutputs` (the per-row
`inputs`/`binary` display fields are not modelled). -/
structure TTResult where
  vars : List String
  rows : List (Nat × OV)
  minterms : List Nat
  maxterms : List Nat
  dontCares : List Nat
  numVars : Nat
deriving DecidableEq, Repr

/-- The body of the row loop of `generateFromOutputs` (`truthTable.js`
lines 110-140), classifying row `i`: a `'X'` output or membership in the
`dontCares` argument makes the row a don't-care; otherwise JS truthiness of
the output decides between minterm and maxterm.  The accumulator carries
`(rows, minterms, maxterms, dontCareTerms)`. -/
def gfoStep (outputs : List OV) (dontCares : List Nat)
    (acc : List (Nat × OV) × List Nat × List Nat × List Nat) (i : Nat) :
    List (Nat × OV) × List Nat × List Nat × List Nat :=
  let out := outputs.getD i OV.zero
  if out = OV.X ∨ i ∈ dontCares then
    (acc.1 ++ [(i, OV.X)], acc.2.1, acc.2.2.1, acc.2.2.2 ++ [i])
  else if out = OV.one then
    (acc.1 ++ [(i, OV.one)], acc.2.1 ++ [i], acc.2.2.1, acc.2.2.2)
  else (acc.1 ++ [(i, OV.zero)], acc.2.1, acc.2.2.1 ++ [i], acc.2.2.2)

/-- `TruthTableGenerator.generateFromOutputs` (`truthTable.js` lines
97-150): throws when the `outputs` array does not have `2^numVars` entries,
then classifies each row index in ascending order. -/
def generateFromOutputs (vars : List String) (outputs : List OV)
    (dontCares : List Nat := []) : Except String TTResult :=
  let numVars := vars.length
  let numRows := 2 ^ numVars
  if outputs.length ≠ numRows then
    Except.error
      ("Expected " ++ toString numRows ++ " output values, got " ++
        toString outputs.length)
  else
    let r := (List.range numRows).foldl (gfoStep outputs dontCares) ([], [], [], [])
    Except.ok
      { vars := vars, rows := r.1, minterms := r.2.1, maxterms := r.2.2.1,
        dontCares := r.2.2.2, numVars := numVars }

/-! ## C8: the constant edge cases of `simplify` -/

/-- A duplicate-free list of naturals below `2^n` containing all of them
has length `2^n`. -/
theorem length_eq_pow_of_full (S : List Nat) (n : Nat) (hnd : S.Nodup)
    (hb : ∀ m ∈ S, m < 2 ^ n) (hall : ∀ i < 2 ^ n, i ∈ S) : S.length = 2 ^ n := by
  have hfs : S.toFinset = Finset.range (2 ^ n) := by
    apply Finset.ext
    intro x
    simp only [List.mem_toFinset, Finset.mem_range]
    exact ⟨hb x, hall x⟩
  rw [← List.toFinset_card_of_nodup hnd, hfs, Finset.card_range]

/-- C8.  `simplify` checks the two constant cases before running the
generator: an empty required set yields `sop = "0"`, `pos = "1"` and empty
implicant lists, a full required set yields `sop = "1"`, `pos = "0"` and
empty implicant lists. -/
theorem simplify_edge_cases (k : KMapIn) (hnd : k.minterms.Nodup)
    (hb : ∀ m ∈ k.minterms, m < 2 ^ k.numVars) :
    (k.minterms = [] →
        simplify k =
          { sop := "0", pos := "1", primeImplicants := [], essentialPrimeImplicants := [] }) ∧
    ((∀ i < 2 ^ k.numVars, i ∈ k.minterms) →
        simplify k =
          { sop := "1", pos := "0", primeImplicants := [], essentialPrimeImplicants := [] }) := by
  constructor
  · intro h
    simp [simplify, h]
  · intro hall
    have hlen : k.minterms.length = 2 ^ k.numVars :=
      length_eq_pow_of_full k.minterms k.numVars hnd hb hall
    have h0 : k.minterms.length ≠ 0 := by
      rw [hlen]
      exact Nat.ne_of_gt (pow_pos (by norm_num) _)
    simp [simplify, h0, hlen]

/-- Witness for C8: the full domain over two variables yields the
constant-1 result. -/
theorem simplify_edge_cases_witness :
    simplify { minterms := [0, 1, 2, 3], vars := ["A", "B"], numVars := 2, dontCares := [] } =
      { sop := "1", pos := "0", primeImplicants := [], essentialPrimeImplicants := [] } :=
  (simplify_edge_cases _ (by decide) (by decide)).2 (by decide)

/-! ## C10: the row classification of `generateFromOutputs` -/

/-- Loop invariant of the row loop of `generateFromOutputs`: after
processing rows `0 … k-1`, the minterm, maxterm and don't-care lists
together contain each processed index exactly once and no other index, and
every processed index of the `dontCares` argument landed in the don't-care
list. -/
theorem gfo_fold_spec (outputs : List OV) (d : List Nat) (k : Nat) :
    (∀ i : Nat,
        (((List.range k).foldl (gfoStep outputs d) ([], [], [], [])).2.1 ++
            (((List.range k).foldl (gfoStep outputs d) ([], [], [], [])).2.2.1 ++
              ((List.range k).foldl (gfoStep outputs d) ([], [], [], [])).2.2.2)).count i =
          if i < k then 1 else 0) ∧
    (∀ i, i < k → i ∈ d →
        i ∈ ((List.range k).foldl (gfoStep outputs d) ([], [], [], [])).2.2.2) := by
  induction k with
  | zero => simp
  | succ k ih =>
      obtain ⟨ih1, ih2⟩ := ih
      rw [List.range_succ, List.foldl_append]
      set acc := (List.range k).foldl (gfoStep outputs d) ([], [], [], []) with hacc
      have hstep : List.foldl (gfoStep outputs d) acc [k] = gfoStep outputs d acc k := rfl
      rw [hstep]
      by_cases hX : outputs.getD k OV.zero = OV.X ∨ k ∈ d
      · constructor
        · intro i
          have h1 := ih1 i
          simp only [gfoStep, if_pos hX, List.count_append, List.count_singleton'] at h1 ⊢
          by_cases hik : k = i
          · subst hik
            rw [if_pos (Nat.lt_succ_self k)]
            rw [if_neg (Nat.lt_irrefl k)] at h1
            simp only [beq_self_eq_true, if_true] at *
            omega
          · simp only [if_neg hik]
            by_cases hlt : i < k
            · rw [if_pos hlt] at h1
              rw [if_pos (by omega)]
              omega
            · rw [if_neg hlt] at h1
              rw [if_neg (by omega)]
              omega
        · intro i hik hid
          simp only [gfoStep, if_pos hX, List.mem_append]
          by_cases hik' : i = k
          · exact Or.inr (by simp [hik'])
          · exact Or.inl (ih2 i (by omega) hid)
      · have hnd : ¬ (k ∈ d) := fun hh => hX (Or.inr hh)
        by_cases h1b : outputs.getD k OV.zero = OV.one
        · constructor
          · intro i
            have h1 := ih1 i
            simp only [gfoStep, if_neg hX, if_pos h1b, List.count_append,
              List.count_singleton'] at h1 ⊢
            by_cases hik : k = i
            · subst hik
              rw [if_pos (Nat.lt_succ_self k)]
              rw [if_neg (Nat.lt_irrefl k)] at h1
              simp only [beq_self_eq_true, if_true] at *
              omega
            · simp only [if_neg hik]
              by_cases hlt : i < k
              · rw [if_pos hlt] at h1
                rw [if_pos (by omega)]
                omega
              · rw [if_neg hlt] at h1
                rw [if_neg (by omega)]
                omega
          · intro i hik hid
            simp only [gfoStep, if_neg hX, if_pos h1b]
            have : i ≠ k := fun hh => hnd (hh ▸ hid)
            exact ih2 i (by omega) hid
        · constructor
          · intro i
            have h1 := ih1 i
            simp only [gfoStep, if_neg hX, if_neg h1b, List.count_append,
              List.count_singleton'] at h1 ⊢
            by_cases hik : k = i
            · subst hik
              rw [if_pos (Nat.lt_succ_self k)]
              rw [if_neg (Nat.lt_irrefl k)] at h1
              simp only [beq_self_eq_true, if_true] at *
              omega
            · simp only [if_neg hik]
              by_cases hlt : i < k
              · rw [if_pos hlt] at h1
                rw [if_pos (by omega)]
                omega
              · rw [if_neg hlt] at h1
                rw [if_neg (by omega)]
                omega
          · intro i hik hid
            simp only [gfoStep, if_neg hX, if_neg h1b]
            have : i ≠ k := fun hh => hnd (hh ▸ hid)
            exact ih2 i (by omega) hid

/-- C10.  When the output vector has the right length,
`generateFromOutputs` succeeds and its minterm, maxterm and don't-care
lists are pairwise disjoint and together contain every index of
`[0, 2^n)` exactly once; every in-range index of the `dontCares` argument
is classified as a don't-care, overriding the 0/1 entry of the output
vector for that row. -/
theorem generateFromOutputs_partition (v : List String) (o : List OV) (d : List Nat)
    (h : o.length = 2 ^ v.length) :
    ∃ r, generateFromOutputs v o d = Except.ok r ∧
      (∀ i : Nat,
          (r.minterms ++ (r.maxterms ++ r.dontCares)).count i =
            if i < 2 ^ v.length then 1 else 0) ∧
      (∀ i, i < 2 ^ v.length → i ∈ d → i ∈ r.dontCares) := by
  obtain ⟨h1, h2⟩ := gfo_fold_spec o d (2 ^ v.length)
  have hgen : generateFromOutputs v o d =
      Except.ok
        { vars := v,
          rows := ((List.range (2 ^ v.length)).foldl (gfoStep o d) ([], [], [], [])).1,
          minterms := ((List.range (2 ^ v.length)).foldl (gfoStep o d) ([], [], [], [])).2.1,
          maxterms := ((List.range (2 ^ v.length)).foldl (gfoStep o d) ([], [], [], [])).2.2.1,
          dontCares := ((List.range (2 ^ v.length)).foldl (gfoStep o d) ([], [], [], [])).2.2.2,
          numVars := v.length } := by
    simp [generateFromOutputs, h]
  exact ⟨_, hgen, h1, h2⟩

/-- Witness for C10: a 2-variable table with an overriding don't-care at
row 1 (whose outputs entry is `1`). -/
theorem generateFromOutputs_partition_witness :
    [OV.one, OV.one, OV.zero, OV.X].length = 2 ^ (["A", "B"] : List String).length ∧
    ∃ r, generateFromOutputs ["A", "B"] [OV.one, OV.one, OV.zero, OV.X] [1] = Except.ok r ∧
      (∀ i : Nat,
          (r.minterms ++ (r.maxterms ++ r.dontCares)).count i =
            if i < 2 ^ (["A", "B"] : List String).length then 1 else 0) ∧
      (∀ i, i < 2 ^ (["A", "B"] : List String).length → i ∈ [1] → i ∈ r.dontCares) :=
  ⟨by decide,
    generateFromOutputs_partition ["A", "B"] [OV.one, OV.one, OV.zero, OV.X] [1] (by decide)⟩

/-! ## C6: the adjacency invariant of the grid builder -/

/-- C6.  For every variable count `n ∈ [2,6]` and every pair of assignment
indices in `[0, 2^n)` that differ in exactly one bit, `KarnaughMap.generate`
places the two indices either in grid-adjacent cells of one tile (with
wraparound between the first and last row and between the first and last
column) or in the same cell position of two tiles whose selector bits
differ in exactly one bit. -/
theorem kmap_adjacency (n i j : Nat) (h2 : 2 ≤ n) (h6 : n ≤ 6)
    (hi : i < 2 ^ n) (hj : j < 2 ^ n) (hd : diffOneBit n i j) : gridAdjacent n i j := by
  interval_cases n
  · exact (by decide : ∀ a < 2 ^ 2, ∀ b < 2 ^ 2, diffOneBit 2 a b → gridAdjacent 2 a b)
      i hi j hj hd
  · exact (by decide : ∀ a < 2 ^ 3, ∀ b < 2 ^ 3, diffOneBit 3 a b → gridAdjacent 3 a b)
      i hi j hj hd
  · exact (by decide : ∀ a < 2 ^ 4, ∀ b < 2 ^ 4, diffOneBit 4 a b → gridAdjacent 4 a b)
      i hi j hj hd
  · exact (by decide : ∀ a < 2 ^ 5, ∀ b < 2 ^ 5, diffOneBit 5 a b → gridAdjacent 5 a b)
      i hi j hj hd
  · exact (by decide : ∀ a < 2 ^ 6, ∀ b < 2 ^ 6, diffOneBit 6 a b → gridAdjacent 6 a b)
      i hi j hj hd

/-- Witness for C6: indices 5 (`000101`) and 7 (`000111`) of a 6-variable
map differ in exactly one bit and are placed adjacently. -/
theorem kmap_adjacency_witness :
    2 ≤ 6 ∧ 6 ≤ 6 ∧ 5 < 2 ^ 6 ∧ 7 < 2 ^ 6 ∧ diffOneBit 6 5 7 ∧ gridAdjacent 6 5 7 :=
  ⟨by decide, by decide, by decide, by decide, by decide,
    kmap_adjacency 6 5 7 (by decide) (by decide) (by decide) (by decide) (by decide)⟩

/-! ## C7: input validation -/

/-- Counterexample for C7.  A request whose required set (`outputs[1] = 1`)
overlaps its don't-care set (`dontCares = [1]`) is *not* rejected:
`generateFromOutputs` succeeds and silently reclassifies index 1 as a
don't-care; likewise a don't-care index far outside `[0, 2^n)` (here 7 with
`n = 2`) raises no error.  The claimed validation errors for overlapping
sets and out-of-range indices do not exist in the code. -/
theorem validation_overlap_counterexample :
    (generateFromOutputs ["A", "B"] [OV.one, OV.one, OV.zero, OV.zero] [1]).map
        (fun r => (r.minterms, r.dontCares)) = Except.ok ([0], [1]) ∧
    (generateFromOutputs ["A", "B"] [OV.one, OV.one, OV.zero, OV.zero] [7]).isOk = true := by
  exact ⟨rfl, rfl⟩

/-- C7 amended.  The only validation errors the code raises are: the
variable count being outside `[2,6]` (thrown by `KarnaughMap.generate`) and
a supplied output vector whose length differs from `2^n` (thrown by
`generateFromOutputs`).  Out-of-range indices and overlapping
required/don't-care sets raise no error (overlapping indices are silently
treated as don't-cares). -/
theorem validation_amended :
    (∀ (v : List String) (o : List OV) (d : List Nat),
        (generateFromOutputs v o d).isOk = true ↔ o.length = 2 ^ v.length) ∧
    (∀ n : Nat, (kmapGenerateCheck n).isOk = true ↔ 2 ≤ n ∧ n ≤ 6) := by
  constructor
  · intro v o d
    by_cases h : o.length = 2 ^ v.length
    · simp [generateFromOutputs, h, Except.isOk, Except.toBool]
    · simp [generateFromOutputs, h, Except.isOk, Except.toBool]
  · intro n
    by_cases h : n < 2 ∨ n > 6
    · have hf : (kmapGenerateCheck n).isOk = false := by
        simp [kmapGenerateCheck, h, Except.isOk, Except.toBool]
      rw [hf]
      constructor
      · intro hh; exact Bool.noConfusion hh
      · intro hh; omega
    · have ht : (kmapGenerateCheck n).isOk = true := by
        simp [kmapGenerateCheck, h, Except.isOk, Except.toBool]
      rw [ht]
      constructor
      · intro _; omega
      · intro _; rfl

/-! ## C9: the pass bound of the merge loop -/

/-- The instrumented loop agrees with `qmLoop`, executes at most `fuel`
passes, and stops early only through the empty-`newTerms` break. -/
theorem qmLoopCount_spec (fuel : Nat) (terms : List Term) :
    (qmLoopCount fuel terms).1 = qmLoop fuel terms ∧
    (qmLoopCount fuel terms).2.1 ≤ fuel ∧
    ((qmLoopCount fuel terms).2.2 = true ∨ (qmLoopCount fuel terms).2.1 = fuel) := by
  induction fuel generalizing terms with
  | zero => exact ⟨rfl, Nat.le_refl 0, Or.inr rfl⟩
  | succ n ih =>
      cases h : (qmStep terms).2.isEmpty with
      | true => refine ⟨?_, ?_, Or.inl ?_⟩ <;> simp [qmLoopCount, qmLoop, h]
      | false =>
          obtain ⟨h1, h2, h3⟩ := ih (qmStep terms).2
          refine ⟨?_, ?_, ?_⟩
          · simp [qmLoopCount, qmLoop, h, h1]
          · simp only [qmLoopCount, h, Bool.false_eq_true, if_false]
            omega
          · simp only [qmLoopCount, h, Bool.false_eq_true, if_false]
            rcases h3 with h3 | h3
            · exact Or.inl h3
            · exact Or.inr (by omega)

/-- C9.  For every input minterm list and variable count, the
prime-implicant loop of `quineMcCluskey` terminates after at most
`numVars` merge passes: the executed pass count is bounded by `numVars`,
and the loop stops either because a pass produced no new cubes (the
`broke` flag) or because the `iteration < numVars` bound was reached. -/
theorem quineMcCluskey_pass_bound (minterms : List Nat) (numVars : Nat) :
    (qmLoopCount numVars (minterms.map (fun m => ⟨natToBits numVars m, [m], false⟩))).1 =
        quineMcCluskey minterms numVars ∧
    (qmLoopCount numVars (minterms.map (fun m => ⟨natToBits numVars m, [m], false⟩))).2.1 ≤
        numVars ∧
    ((qmLoopCount numVars (minterms.map (fun m => ⟨natToBits numVars m, [m], false⟩))).2.2 =
          true ∨
      (qmLoopCount numVars (minterms.map (fun m => ⟨natToBits numVars m, [m], false⟩))).2.1 =
        numVars) :=
  qmLoopCount_spec numVars (minterms.map (fun m => ⟨natToBits numVars m, [m], false⟩))

/-! ## C3: deduplication of the prime-implicant list (refuted) -/

/-- Counterexample for C3.  `quineMcCluskey([0], 2)` returns the cube `00`
twice: the final pass produces no new terms, so its unused terms are pushed
once inside the loop (simplifier.js lines 116-120) and pushed again by the
post-loop scan (lines 128-132).  The returned list is therefore not
deduplicated by cube identity. -/
theorem quineMcCluskey_dup_counterexample :
    (quineMcCluskey [0] 2).map (fun t => t.binary) = [['0', '0'], ['0', '0']] ∧
    ¬ List.Pairwise (fun a b => a.binary ≠ b.binary) (quineMcCluskey [0] 2) := by
  constructor
  · rfl
  · decide

/-! ## C4: the greedy tie-break (refuted) -/

/-- Counterexample for C4.  With minterms `{0,2,3,7}` over 3 variables the
greedy completion starts with no essential implicants and all four minterms
uncovered; the cubes `0-0`, `01-` and `-11` all cover 2 remaining minterms
and all have 2 literals, so the claimed tie-break (lowest literal count,
then canonical cube string order) would select `-11` (its string sorts
before `0-0`), but the code's scan keeps the first maximal implicant in
list order and selects `0-0`. -/
theorem greedy_tiebreak_counterexample :
    essentialPart (quineMcCluskey [0, 2, 3, 7] 3) [0, 2, 3, 7] = [] ∧
    (selectBest (quineMcCluskey [0, 2, 3, 7] 3) [] [] [0, 2, 3, 7]).map
        (fun t => t.binary) = some ['0', '-', '0'] ∧
    (claimSelect (quineMcCluskey [0, 2, 3, 7] 3) [] [] [0, 2, 3, 7]).map
        (fun t => t.binary) = some ['-', '1', '1'] ∧
    countRemaining ⟨['0', '-', '0'], [0, 2], false⟩ [0, 2, 3, 7] =
      countRemaining ⟨['-', '1', '1'], [3, 7], false⟩ [0, 2, 3, 7] ∧
    literalCount ⟨['0', '-', '0'], [0, 2], false⟩ =
      literalCount ⟨['-', '1', '1'], [3, 7], false⟩ ∧
    strLtCh ['-', '1', '1'] ['0', '-', '0'] = true := by
  refine ⟨rfl, rfl, rfl, rfl, rfl, rfl⟩

/-! ## C5: the merge test `combineBinary` -/

/-- An in-range `getD` is a member of the list. -/
theorem getD_mem_of_lt (l : List Char) (n : Nat) (d : Char) (h : n < l.length) :
    l.getD n d ∈ l := by
  rw [List.getD_eq_getElem l d h]
  exact List.getElem_mem h

/-- Two lists of equal length that agree at every position are equal. -/
theorem list_ext_getD (a b : List Char) (hlen : a.length = b.length)
    (h : ∀ j < a.length, a.getD j ' ' = b.getD j ' ') : a = b := by
  induction a generalizing b with
  | nil => cases b with
    | nil => rfl
    | cons y ys => simp at hlen
  | cons x xs ih =>
      cases b with
      | nil => simp at hlen
      | cons y ys =>
          have h0 := h 0 (by simp)
          simp only [List.getD_cons_zero] at h0
          subst h0
          have : xs = ys := by
            apply ih ys (by simpa using hlen)
            intro j hj
            have := h (j + 1) (by simpa using Nat.succ_lt_succ hj)
            simpa using this
          rw [this]

/-- Setting the same value at position `p` in two equal-length lists that
agree everywhere except possibly at `p` yields the same list. -/
theorem set_eq_of_agree_off (a b : List Char) (p : Nat) (c : Char)
    (hlen : a.length = b.length)
    (h : ∀ j < a.length, j ≠ p → a.getD j ' ' = b.getD j ' ') :
    a.set p c = b.set p c := by
  induction a generalizing b p with
  | nil => cases b with
    | nil => rfl
    | cons y ys => simp at hlen
  | cons x xs ih =>
      cases b with
      | nil => simp at hlen
      | cons y ys =>
          cases p with
          | zero =>
              simp only [List.set_cons_zero]
              have : xs = ys := by
                apply list_ext_getD xs ys (by simpa using hlen)
                intro j hj
                have := h (j + 1) (by simpa using Nat.succ_lt_succ hj) (by omega)
                simpa using this
              rw [this]
          | succ q =>
              have h0 := h 0 (by simp) (by omega)
              simp only [List.getD_cons_zero] at h0
              subst h0
              simp only [List.set_cons_succ]
              rw [ih ys q (by simpa using hlen)]
              intro j hj hjq
              have := h (j + 1) (by simpa using Nat.succ_lt_succ hj) (by omega)
              simpa using this

/-- The scan of `combineBinary` is symmetric in its two arguments. -/
theorem scanDiffs_symm (a b : List Char) : scanDiffs a b = scanDiffs b a := by
  induction a generalizing b with
  | nil => cases b with
    | nil => rfl
    | cons y ys => rfl
  | cons x xs ih =>
      cases b with
      | nil => rfl
      | cons y ys =>
          simp only [scanDiffs]
          by_cases hxy : x = y
          · subst hxy
            rw [ih ys]
          · have hyx : ¬ y = x := fun hh => hxy hh.symm
            rw [if_neg hxy, if_neg hyx]
            by_cases hd : x = '-' ∨ y = '-'
            · have hd' : y = '-' ∨ x = '-' := hd.symm
              rw [if_pos hd, if_pos hd']
            · have hd' : ¬ (y = '-' ∨ x = '-') := fun hh => hd hh.symm
              rw [if_neg hd, if_neg hd', ih ys]

/-- A successful scan implies the two lists have equal length. -/
theorem scanDiffs_length (a : List Char) :
    ∀ (b : List Char) (x : Nat × Nat), scanDiffs a b = some x → a.length = b.length := by
  induction a with
  | nil =>
      intro b x h
      cases b with
      | nil => rfl
      | cons y ys => simp [scanDiffs] at h
  | cons x' xs ih =>
      intro b x h
      cases b with
      | nil => simp [scanDiffs] at h
      | cons y ys =>
          simp only [scanDiffs] at h
          by_cases hxy : x' = y
          · rw [if_pos hxy] at h
            cases hs : scanDiffs xs ys with
            | none => rw [hs] at h; simp at h
            | some z => simp [ih ys z hs]
          · rw [if_neg hxy] at h
            by_cases hd : x' = '-' ∨ y = '-'
            · rw [if_pos hd] at h; simp at h
            · rw [if_neg hd] at h
              cases hs : scanDiffs xs ys with
              | none => rw [hs] at h; simp at h
              | some z => simp [ih ys z hs]

/-- On two pointwise-equal lists the scan reports zero differences. -/
theorem scanDiffs_eq_of_agree (a : List Char) :
    ∀ b : List Char, a.length = b.length →
      (∀ j < a.length, a.getD j ' ' = b.getD j ' ') →
      ∃ p, scanDiffs a b = some (0, p) := by
  induction a with
  | nil =>
      intro b hlen _
      cases b with
      | nil => exact ⟨0, rfl⟩
      | cons y ys => simp at hlen
  | cons x xs ih =>
      intro b hlen h
      cases b with
      | nil => simp at hlen
      | cons y ys =>
          have h0 := h 0 (by simp)
          simp only [List.getD_cons_zero] at h0
          obtain ⟨p, hp⟩ := ih ys (by simpa using hlen) (fun j hj => by
            have := h (j + 1) (by simpa using Nat.succ_lt_succ hj)
            simpa using this)
          refine ⟨p + 1, ?_⟩
          simp only [scanDiffs, if_pos h0, hp]

/-- On two lists that differ exactly at position `i`, with neither holding
`'-'` there, the scan reports one difference at `i`. -/
theorem scanDiffs_one (a : List Char) :
    ∀ (b : List Char) (i : Nat), a.length = b.length → i < a.length →
      a.getD i ' ' ≠ b.getD i ' ' → a.getD i ' ' ≠ '-' → b.getD i ' ' ≠ '-' →
      (∀ j < a.length, j ≠ i → a.getD j ' ' = b.getD j ' ') →
      scanDiffs a b = some (1, i) := by
  induction a with
  | nil => intro b i _ hi; simp at hi
  | cons x xs ih =>
      intro b i hlen hi hne hda hdb h
      cases b with
      | nil => simp at hlen
      | cons y ys =>
          cases i with
          | zero =>
              simp only [List.getD_cons_zero] at hne hda hdb
              obtain ⟨p, hp⟩ := scanDiffs_eq_of_agree xs ys (by simpa using hlen)
                (fun j hj => by
                  have := h (j + 1) (by simpa using Nat.succ_lt_succ hj) (by omega)
                  simpa using this)
              simp only [scanDiffs, if_neg hne,
                if_neg (show ¬(x = '-' ∨ y = '-') from fun hh => hh.elim hda hdb), hp]
              simp
          | succ q =>
              have h0 := h 0 (by simp) (by omega)
              simp only [List.getD_cons_zero] at h0
              have ht := ih ys q (by simpa using hlen) (by simpa using hi)
                (by simpa using hne) (by simpa using hda) (by simpa using hdb)
                (fun j hj hjq => by
                  have := h (j + 1) (by simpa using Nat.succ_lt_succ hj) (by omega)
                  simpa using this)
              simp only [scanDiffs, if_pos h0, ht]

/-- A scan reporting zero differences means the lists agree pointwise. -/
theorem scanDiffs_zero_inv (a : List Char) :
    ∀ (b : List Char) (p : Nat), scanDiffs a b = some (0, p) →
      ∀ j < a.length, a.getD j ' ' = b.getD j ' ' := by
  induction a with
  | nil => intro b p _ j hj; simp at hj
  | cons x xs ih =>
      intro b p h j hj
      cases b with
      | nil => simp [scanDiffs] at h
      | cons y ys =>
          simp only [scanDiffs] at h
          by_cases hxy : x = y
          · rw [if_pos hxy] at h
            cases hs : scanDiffs xs ys with
            | none => rw [hs] at h; simp at h
            | some z =>
                rw [hs] at h
                cases z with
                | mk d p' =>
                    simp only [Option.some.injEq, Prod.mk.injEq] at h
                    obtain ⟨hd0, hp'⟩ := h
                    subst hd0
                    cases j with
                    | zero => simpa using hxy
                    | succ q =>
                        have := ih ys p' hs q (by simpa using hj)
                        simpa using this
          · rw [if_neg hxy] at h
            by_cases hd : x = '-' ∨ y = '-'
            · rw [if_pos hd] at h; simp at h
            · rw [if_neg hd] at h
              cases hs : scanDiffs xs ys with
              | none => rw [hs] at h; simp at h
              | some z => rw [hs] at h; simp at h

/-- A scan reporting exactly one difference pinpoints it: the reported
position is in range, the lists differ there with neither side `'-'`, and
they agree everywhere else. -/
theorem scanDiffs_one_inv (a : List Char) :
    ∀ (b : List Char) (p : Nat), scanDiffs a b = some (1, p) →
      p < a.length ∧ a.getD p ' ' ≠ b.getD p ' ' ∧ a.getD p ' ' ≠ '-' ∧
        b.getD p ' ' ≠ '-' ∧ ∀ j < a.length, j ≠ p → a.getD j ' ' = b.getD j ' ' := by
  induction a with
  | nil =>
      intro b p h
      cases b with
      | nil =>
          simp only [scanDiffs, Option.some.injEq, Prod.mk.injEq] at h
          omega
      | cons y ys => simp [scanDiffs] at h
  | cons x xs ih =>
      intro b p h
      cases b with
      | nil => simp [scanDiffs] at h
      | cons y ys =>
          simp only [scanDiffs] at h
          by_cases hxy : x = y
          · rw [if_pos hxy] at h
            cases hs : scanDiffs xs ys with
            | none => rw [hs] at h; simp at h
            | some z =>
                rw [hs] at h
                cases z with
                | mk d p' =>
                    simp only [Option.some.injEq, Prod.mk.injEq] at h
                    obtain ⟨hd1, hp⟩ := h
                    subst hd1
                    obtain ⟨hq, hne, hda, hdb, hagree⟩ := ih ys p' hs
                    subst hp
                    refine ⟨by simpa using Nat.succ_lt_succ hq, by simpa using hne,
                      by simpa using hda, by simpa using hdb, ?_⟩
                    intro j hj hjp
                    cases j with
                    | zero => simpa using hxy
                    | succ q' =>
                        have := hagree q' (by simpa using hj) (by omega)
                        simpa using this
          · rw [if_neg hxy] at h
            by_cases hd : x = '-' ∨ y = '-'
            · rw [if_pos hd] at h; simp at h
            · rw [if_neg hd] at h
              cases hs : scanDiffs xs ys with
              | none => rw [hs] at h; simp at h
              | some z =>
                  rw [hs] at h
                  cases z with
                  | mk d p' =>
                      simp only [Option.some.injEq, Prod.mk.injEq] at h
                      obtain ⟨hd1, hp⟩ := h
                      have hd0 : d = 0 := by omega
                      subst hd0
                      have hp0 : p = 0 := by simpa using hp.symm
                      subst hp0
                      refine ⟨by simp, by simpa using hxy,
                        fun hh => hd (Or.inl (by simpa using hh)),
                        fun hh => hd (Or.inr (by simpa using hh)), ?_⟩
                      intro j hj hjp
                      cases j with
                      | zero => omega
                      | succ q' =>
                          have := scanDiffs_zero_inv xs ys p' hs q' (by simpa using hj)
                          simpa using this

/-- Unfolding of `combineBinary` through a known scan result. -/
theorem combineBinary_eq (a b : List Char) (d p : Nat)
    (h : scanDiffs a b = some (d, p)) :
    combineBinary a b = if d = 1 then some (a.set p '-') else none := by
  unfold combineBinary
  rw [h]

/-- Unfolding of `combineBinary` through a failed scan. -/
theorem combineBinary_eq_none (a b : List Char) (h : scanDiffs a b = none) :
    combineBinary a b = none := by
  unfold combineBinary
  rw [h]

/-- The result of `combineBinary` does not depend on the argument order. -/
theorem combineBinary_symm (a b : List Char) : combineBinary a b = combineBinary b a := by
  cases hs : scanDiffs a b with
  | none =>
      rw [combineBinary_eq_none a b hs,
        combineBinary_eq_none b a (by rw [← scanDiffs_symm a b]; exact hs)]
  | some z =>
      cases z with
      | mk d p =>
          rw [combineBinary_eq a b d p hs,
            combineBinary_eq b a d p (by rw [← scanDiffs_symm a b]; exact hs)]
          by_cases hd1 : d = 1
          · subst hd1
            obtain ⟨hq, hne, hda, hdb, hagree⟩ := scanDiffs_one_inv a b p hs
            have hlen := scanDiffs_length a b (1, p) hs
            rw [set_eq_of_agree_off a b p '-' hlen hagree]
          · rw [if_neg hd1, if_neg hd1]

/-- C5.  For equal-length tri-state patterns `a` and `b`, `combineBinary`
returns a merged cube exactly when `a` and `b` differ in exactly one
position with neither string holding `'-'` there (so one holds `'0'` and
the other `'1'`); the merged cube is `a` with that position replaced by
`'-'` and all others unchanged, and the result is the same for the calls
`(a, b)` and `(b, a)`. -/
theorem combineBinary_merge_spec (a b : List Char) (hlen : a.length = b.length)
    (ha : ∀ c ∈ a, c = '0' ∨ c = '1' ∨ c = '-')
    (hb : ∀ c ∈ b, c = '0' ∨ c = '1' ∨ c = '-') :
    ((combineBinary a b).isSome ↔
      ∃ i < a.length, a.getD i ' ' ≠ b.getD i ' ' ∧ a.getD i ' ' ≠ '-' ∧
        b.getD i ' ' ≠ '-' ∧ ∀ j < a.length, j ≠ i → a.getD j ' ' = b.getD j ' ') ∧
    (∀ i < a.length, a.getD i ' ' ≠ b.getD i ' ' → a.getD i ' ' ≠ '-' →
      b.getD i ' ' ≠ '-' → (∀ j < a.length, j ≠ i → a.getD j ' ' = b.getD j ' ') →
      combineBinary a b = some (a.set i '-') ∧
        ((a.getD i ' ' = '0' ∧ b.getD i ' ' = '1') ∨
          (a.getD i ' ' = '1' ∧ b.getD i ' ' = '0'))) ∧
    combineBinary a b = combineBinary b a := by
  refine ⟨⟨?_, ?_⟩, ?_, combineBinary_symm a b⟩
  · intro hsome
    cases hs : scanDiffs a b with
    | none => rw [combineBinary_eq_none a b hs] at hsome; simp at hsome
    | some z =>
        cases z with
        | mk d p =>
            rw [combineBinary_eq a b d p hs] at hsome
            by_cases hd1 : d = 1
            · subst hd1
              obtain ⟨hq, hne, hda, hdb, hagree⟩ := scanDiffs_one_inv a b p hs
              exact ⟨p, hq, hne, hda, hdb, hagree⟩
            · rw [if_neg hd1] at hsome
              simp at hsome
  · rintro ⟨i, hi, hne, hda, hdb, hagree⟩
    have hs := scanDiffs_one a b i hlen hi hne hda hdb hagree
    rw [combineBinary_eq a b 1 i hs]
    simp
  · intro i hi hne hda hdb hagree
    have hs := scanDiffs_one a b i hlen hi hne hda hdb hagree
    constructor
    · rw [combineBinary_eq a b 1 i hs]
      simp
    · have hma : a.getD i ' ' ∈ a := getD_mem_of_lt a i ' ' hi
      have hmb : b.getD i ' ' ∈ b := getD_mem_of_lt b i ' ' (hlen ▸ hi)
      rcases ha _ hma with h1 | h1 | h1 <;> rcases hb _ hmb with h2 | h2 | h2 <;>
        simp_all

/-- Witness for C5: the repository's own test case `combineBinary('1010',
'1011') = '101-'`, together with symmetry of the call. -/
theorem combineBinary_merge_spec_witness :
    combineBinary ['1', '0', '1', '0'] ['1', '0', '1', '1'] = some ['1', '0', '1', '-'] ∧
    combineBinary ['1', '0', '1', '0'] ['1', '0', '1', '1'] =
      combineBinary ['1', '0', '1', '1'] ['1', '0', '1', '0'] := by
  have h := combineBinary_merge_spec ['1', '0', '1', '0'] ['1', '0', '1', '1']
    (by decide) (by decide) (by decide)
  constructor
  · exact (h.2.1 3 (by decide) (by decide) (by decide) (by decide) (by decide)).1
  · exact h.2.2

/-! ## C2: what the reported essential set contains (refuted) -/

/-- Counterexample for C2.  For minterms `{0,1,2,5,6,7}` over 3 variables
(the classic cyclic cover) every required minterm is covered by two
distinct prime implicants (four coverage-map entries each, since every
prime implicant appears twice in the list), so no implicant is the sole
coverage entry — or even the sole distinct coverer — of any minterm: the
set of sole-entry implicants (`essentialPart`) is empty.  Yet `simplify`
reports the three greedily chosen implicants `00-`, `-10`, `1-1` in its
`essentialPrimeImplicants` list, so none of them has a required minterm
for which it is the only covering prime implicant. -/
theorem essential_list_counterexample :
    (simplify ⟨[0, 1, 2, 5, 6, 7], ["A", "B", "C"], 3, []⟩).essentialPrimeImplicants.map
        (fun t => t.binary) =
      [['0', '0', '-'], ['-', '1', '0'], ['1', '-', '1']] ∧
    essentialPart (quineMcCluskey [0, 1, 2, 5, 6, 7] 3) [0, 1, 2, 5, 6, 7] = [] ∧
    [0, 1, 2, 5, 6, 7].map
        (fun m => (coverageList (quineMcCluskey [0, 1, 2, 5, 6, 7] 3) m).length) =
      [4, 4, 4, 4, 4, 4] ∧
    [0, 1, 2, 5, 6, 7].map
        (fun m =>
          (((quineMcCluskey [0, 1, 2, 5, 6, 7] 3).filter
                  (fun t => m ∈ t.minterms)).map (fun t => t.binary)).dedup.length) =
      [2, 2, 2, 2, 2, 2] := by
  refine ⟨rfl, rfl, rfl, by decide⟩

/-! ## Bit-string and cube-matching groundwork for the round-trip proof -/

theorem natToBits_length (n m : Nat) : (natToBits n m).length = n := by
  simp [natToBits]

theorem natToBits_getD (n m j : Nat) (hj : j < n) :
    (natToBits n m).getD j ' ' = bitChar m (n - 1 - j) := by
  rw [List.getD_eq_getElem _ _ (by simpa [natToBits_length] using hj)]
  simp [natToBits]

theorem natToBits_mem (n m : Nat) (c : Char) (hc : c ∈ natToBits n m) :
    c = '0' ∨ c = '1' := by
  simp only [natToBits, List.mem_map] at hc
  obtain ⟨i, _, hi⟩ := hc
  unfold bitChar at hi
  split at hi
  · exact Or.inr hi.symm
  · exact Or.inl hi.symm

theorem natToBits_tri (n m : Nat) (c : Char) (hc : c ∈ natToBits n m) :
    c = '0' ∨ c = '1' ∨ c = '-' := by
  rcases natToBits_mem n m c hc with h | h
  · exact Or.inl h
  · exact Or.inr (Or.inl h)

theorem natToBits_nodash (n m j : Nat) (hj : j < n) :
    (natToBits n m).getD j ' ' ≠ '-' := by
  intro h
  have hm : (natToBits n m).getD j ' ' ∈ natToBits n m :=
    getD_mem_of_lt _ _ _ (by simpa [natToBits_length] using hj)
  rcases natToBits_mem n m _ hm with h' | h' <;> rw [h] at h' <;> exact absurd h' (by decide)

theorem natToBits_dash0 (n m : Nat) : dashCount (natToBits n m) = 0 := by
  rw [dashCount, List.countP_eq_zero]
  intro c hc
  rcases natToBits_mem n m c hc with h | h <;> subst h <;> decide

theorem bitChar_eq_iff (m1 m2 k : Nat) :
    bitChar m1 k = bitChar m2 k ↔ m1.testBit k = m2.testBit k := by
  rw [Nat.testBit_to_div_mod, Nat.testBit_to_div_mod]
  unfold bitChar
  by_cases h1 : m1 / 2 ^ k % 2 = 1 <;> by_cases h2 : m2 / 2 ^ k % 2 = 1 <;>
    simp [h1, h2]

theorem natToBits_inj (n m1 m2 : Nat) (h1 : m1 < 2 ^ n) (h2 : m2 < 2 ^ n)
    (h : natToBits n m1 = natToBits n m2) : m1 = m2 := by
  apply Nat.eq_of_testBit_eq
  intro k
  by_cases hk : k < n
  · have hj : n - 1 - (n - 1 - k) = k := by omega
    have := congrArg (fun l => l.getD (n - 1 - k) ' ') h
    simp only at this
    rw [natToBits_getD n m1 (n - 1 - k) (by omega),
      natToBits_getD n m2 (n - 1 - k) (by omega), hj] at this
    exact (bitChar_eq_iff m1 m2 k).mp this
  · rw [Nat.testBit_lt_two_pow (lt_of_lt_of_le h1 (Nat.pow_le_pow_right (by norm_num) (by omega))),
      Nat.testBit_lt_two_pow (lt_of_lt_of_le h2 (Nat.pow_le_pow_right (by norm_num) (by omega)))]

/-- Positional characterization of `cubeMatches`. -/
theorem cubeMatches_iff (p b : List Char) :
    cubeMatches p b = true ↔
      p.length = b.length ∧
        ∀ j < p.length, p.getD j ' ' = '-' ∨ p.getD j ' ' = b.getD j ' ' := by
  induction p generalizing b with
  | nil =>
      cases b with
      | nil => simp [cubeMatches]
      | cons y ys => simp [cubeMatches]
  | cons x xs ih =>
      cases b with
      | nil => simp [cubeMatches]
      | cons y ys =>
          simp only [cubeMatches, Bool.and_eq_true, ih ys]
          constructor
          · rintro ⟨hx, hlen, htail⟩
            refine ⟨by simpa using hlen, ?_⟩
            intro j hj
            cases j with
            | zero =>
                simp only [List.getD_cons_zero]
                by_cases hd : x = '-'
                · exact Or.inl hd
                · rw [if_neg hd] at hx
                  by_cases hxy : x = y
                  · exact Or.inr hxy
                  · rw [if_neg hxy] at hx
                    exact Bool.noConfusion hx
            | succ q =>
                have := htail q (by simpa using hj)
                simpa using this
          · rintro ⟨hlen, hall⟩
            refine ⟨?_, by simpa using hlen, ?_⟩
            · have h0 := hall 0 (by simp)
              simp only [List.getD_cons_zero] at h0
              rcases h0 with h0 | h0
              · rw [if_pos h0]
              · by_cases hd : x = '-'
                · rw [if_pos hd]
                · rw [if_neg hd, if_pos h0]
            · intro j hj
              have := hall (j + 1) (by simpa using Nat.succ_lt_succ hj)
              simpa using this

/-- A dash-free pattern covers exactly itself. -/
theorem cubeMatches_nodash (p b : List Char) (hp : ∀ j < p.length, p.getD j ' ' ≠ '-') :
    cubeMatches p b = true ↔ p = b := by
  rw [cubeMatches_iff]
  constructor
  · rintro ⟨hlen, hall⟩
    apply list_ext_getD p b hlen
    intro j hj
    rcases hall j hj with h | h
    · exact absurd h (hp j hj)
    · exact h
  · rintro rfl
    exact ⟨rfl, fun j hj => Or.inr rfl⟩

/-- `getD` through `List.set`: the set position reads back the new value,
every other in-range position is unchanged. -/
theorem getD_set_self (l : List Char) (i : Nat) (c : Char) (hi : i < l.length) :
    (l.set i c).getD i ' ' = c := by
  rw [List.getD_eq_getElem _ _ (by simpa [List.length_set] using hi)]
  exact List.getElem_set_self _

theorem getD_set_ne (l : List Char) (i j : Nat) (c : Char) (hj : j < l.length)
    (hij : j ≠ i) : (l.set i c).getD j ' ' = l.getD j ' ' := by
  rw [List.getD_eq_getElem _ _ (by simpa [List.length_set] using hj),
    List.getD_eq_getElem _ _ hj]
  exact List.getElem_set_ne (fun hh => hij hh.symm) _

/-- Matching against the merged cube is matching against either parent:
if `p1` and `p2` agree except at position `i`, where they hold the two
distinct non-dash (hence `'0'`/`'1'`) values, then a dash-free bit string
matches `p1.set i '-'` exactly when it matches `p1` or `p2`. -/
theorem matches_set_dash (p1 p2 b : List Char) (i : Nat)
    (hlen : p1.length = p2.length) (hblen : b.length = p1.length)
    (hi : i < p1.length) (hne : p1.getD i ' ' ≠ p2.getD i ' ')
    (hda : p1.getD i ' ' ≠ '-') (hdb : p2.getD i ' ' ≠ '-')
    (hagree : ∀ j < p1.length, j ≠ i → p1.getD j ' ' = p2.getD j ' ')
    (h1 : ∀ c ∈ p1, c = '0' ∨ c = '1' ∨ c = '-')
    (h2 : ∀ c ∈ p2, c = '0' ∨ c = '1' ∨ c = '-')
    (hb : ∀ c ∈ b, c = '0' ∨ c = '1') :
    cubeMatches (p1.set i '-') b = (cubeMatches p1 b || cubeMatches p2 b) := by
  have hsetlen : (p1.set i '-').length = p1.length := List.length_set _ _ _
  have hc1 : p1.getD i ' ' = '0' ∨ p1.getD i ' ' = '1' := by
    rcases h1 _ (getD_mem_of_lt p1 i ' ' hi) with h | h | h
    · exact Or.inl h
    · exact Or.inr h
    · exact absurd h hda
  have hc2 : p2.getD i ' ' = '0' ∨ p2.getD i ' ' = '1' := by
    rcases h2 _ (getD_mem_of_lt p2 i ' ' (hlen ▸ hi)) with h | h | h
    · exact Or.inl h
    · exact Or.inr h
    · exact absurd h hdb
  have hbi : b.getD i ' ' = '0' ∨ b.getD i ' ' = '1' :=
    hb _ (getD_mem_of_lt b i ' ' (by omega))
  have hbi' : b.getD i ' ' = p1.getD i ' ' ∨ b.getD i ' ' = p2.getD i ' ' := by
    rcases hc1 with e1 | e1 <;> rcases hc2 with e2 | e2 <;> rcases hbi with e3 | e3 <;>
      simp_all
  by_cases hm : cubeMatches (p1.set i '-') b = true
  · rw [hm]
    obtain ⟨_, hall⟩ := (cubeMatches_iff _ _).mp hm
    rcases hbi' with hbi' | hbi'
    · have : cubeMatches p1 b = true := by
        rw [cubeMatches_iff]
        refine ⟨hblen.symm, ?_⟩
        intro j hj
        by_cases hij : j = i
        · subst hij
          exact Or.inr hbi'.symm
        · have := hall j (by omega)
          rw [getD_set_ne p1 i j '-' hj hij] at this
          exact this
      rw [this]
      simp
    · have : cubeMatches p2 b = true := by
        rw [cubeMatches_iff]
        refine ⟨by omega, ?_⟩
        intro j hj
        by_cases hij : j = i
        · subst hij
          exact Or.inr hbi'.symm
        · have := hall j (by omega)
          rw [getD_set_ne p1 i j '-' (by omega) hij, hagree j (by omega) hij] at this
          exact this
      rw [this]
      simp
  · rw [Bool.eq_false_iff.mpr hm]
    have hnot : ∀ q : List Char, q.length = p1.length →
        (∀ j < p1.length, j ≠ i → q.getD j ' ' = p1.getD j ' ') →
        cubeMatches q b ≠ true := by
      intro q hqlen hqa hq
      apply hm
      rw [cubeMatches_iff] at hq ⊢
      obtain ⟨_, hall⟩ := hq
      refine ⟨by omega, ?_⟩
      intro j hj
      by_cases hij : j = i
      · subst hij
        rw [getD_set_self p1 j '-' (by omega)]
        exact Or.inl rfl
      · rw [getD_set_ne p1 i j '-' (by omega) hij, ← hqa j (by omega) hij]
        exact hall j (by omega)
    have hn1 : cubeMatches p1 b ≠ true :=
      hnot p1 rfl (fun j hj hij => rfl)
    have hn2 : cubeMatches p2 b ≠ true :=
      hnot p2 hlen.symm (fun j hj hij => (hagree j hj hij).symm)
    rw [Bool.eq_false_iff.mpr hn1, Bool.eq_false_iff.mpr hn2]
    rfl

/-- What a successful `combineBinary` tells us, in positional form. -/
theorem combineBinary_some_inv (a b c : List Char) (h : combineBinary a b = some c) :
    ∃ i, i < a.length ∧ a.length = b.length ∧ c = a.set i '-' ∧
      a.getD i ' ' ≠ b.getD i ' ' ∧ a.getD i ' ' ≠ '-' ∧ b.getD i ' ' ≠ '-' ∧
      ∀ j < a.length, j ≠ i → a.getD j ' ' = b.getD j ' ' := by
  cases hs : scanDiffs a b with
  | none => rw [combineBinary_eq_none a b hs] at h; exact Option.noConfusion h
  | some z =>
      cases z with
      | mk d p =>
          rw [combineBinary_eq a b d p hs] at h
          by_cases hd1 : d = 1
          · subst hd1
            rw [if_pos rfl] at h
            obtain ⟨hq, hne, hda, hdb, hagree⟩ := scanDiffs_one_inv a b p hs
            exact ⟨p, hq, scanDiffs_length a b (1, p) hs, (Option.some.injEq _ _ ▸ h).symm,
              hne, hda, hdb, hagree⟩
          · rw [if_neg hd1] at h
            exact Option.noConfusion h

/-! ## Membership lemmas for the small container helpers -/

theorem foldl_dedup_mem (l : List Nat) :
    ∀ (acc : List Nat) (x : Nat),
      (x ∈ l.foldl (fun acc m => if m ∈ acc then acc else acc ++ [m]) acc) ↔
        x ∈ acc ∨ x ∈ l := by
  induction l with
  | nil => intro acc x; simp
  | cons y ys ih =>
      intro acc x
      simp only [List.foldl_cons]
      by_cases hy : y ∈ acc
      · rw [if_pos hy, ih]
        constructor
        · rintro (h | h)
          · exact Or.inl h
          · exact Or.inr (List.mem_cons_of_mem _ h)
        · rintro (h | h)
          · exact Or.inl h
          · rcases List.mem_cons.mp h with h | h
            · exact Or.inl (h ▸ hy)
            · exact Or.inr h
      · rw [if_neg hy, ih]
        simp only [List.mem_append, List.mem_singleton, List.mem_cons]
        tauto

theorem mem_dedupKeepFirst (l : List Nat) (x : Nat) : x ∈ dedupKeepFirst l ↔ x ∈ l := by
  rw [dedupKeepFirst, foldl_dedup_mem]
  simp

theorem mem_insertSorted (m : Nat) (l : List Nat) (x : Nat) :
    x ∈ insertSorted m l ↔ x = m ∨ x ∈ l := by
  induction l with
  | nil => simp [insertSorted]
  | cons y ys ih =>
      simp only [insertSorted]
      by_cases h1 : m < y
      · rw [if_pos h1]
        simp [List.mem_cons]
      · rw [if_neg h1]
        by_cases h2 : m = y
        · rw [if_pos h2]
          subst h2
          simp only [List.mem_cons]
          tauto
        · rw [if_neg h2]
          simp only [List.mem_cons, ih]
          tauto

theorem mem_sortNatDedup (l : List Nat) (x : Nat) : x ∈ sortNatDedup l ↔ x ∈ l := by
  induction l with
  | nil => simp [sortNatDedup]
  | cons y ys ih =>
      simp only [sortNatDedup, List.foldr_cons] at *
      rw [mem_insertSorted, ih]
      simp [List.mem_cons]

theorem includesTerm_iff (l : List Term) (t : Term) :
    includesTerm l t = true ↔ t ∈ l := by
  simp only [includesTerm, List.any_eq_true, decide_eq_true_eq]
  constructor
  · rintro ⟨a, ha, rfl⟩
    exact ha
  · intro h
    exact ⟨t, h, rfl⟩

theorem includesTerm_append_singleton (l : List Term) (b t : Term) :
    includesTerm (l ++ [b]) t = true ↔ includesTerm l t = true ∨ t = b := by
  rw [includesTerm_iff, includesTerm_iff]
  simp [List.mem_append]

theorem mem_enum_spec (l : List Term) (pr : Nat × Term) (h : pr ∈ l.enum) :
    pr.1 < l.length ∧ l.getD pr.1 ⟨[], [], false⟩ = pr.2 := by
  obtain ⟨k, hk, hget⟩ := List.getElem_of_mem h
  rw [List.getElem_enum] at hget
  have hk' : k < l.length := by simpa [List.enum_length] using hk
  constructor
  · rw [← hget]
    exact hk'
  · rw [← hget]
    simp only
    exact List.getD_eq_getElem l _ hk'

theorem coverageList_lt (pis : List Term) (m i : Nat) (h : i ∈ coverageList pis m) :
    i < pis.length ∧ m ∈ (pis.getD i ⟨[], [], false⟩).minterms := by
  simp only [coverageList, List.mem_map, List.mem_filter] at h
  obtain ⟨pr, ⟨hpr, hmem⟩, rfl⟩ := h
  obtain ⟨hlt, hget⟩ := mem_enum_spec pis pr hpr
  exact ⟨hlt, by rw [hget]; exact (by simpa using hmem)⟩

/-! ## Soundness of one merge pass -/

theorem buildNewStep_none (acc : List Term) (p : Term × Term)
    (h : combineBinary p.1.binary p.2.binary = none) : buildNewStep acc p = acc := by
  unfold buildNewStep
  rw [h]

theorem buildNewStep_some (acc : List Term) (p : Term × Term) (c : List Char)
    (h : combineBinary p.1.binary p.2.binary = some c) :
    buildNewStep acc p =
      if acc.any (fun t => t.binary = c) then acc
      else acc ++ [⟨c, dedupKeepFirst (p.1.minterms ++ p.2.minterms), false⟩] := by
  unfold buildNewStep
  rw [h]

/-- Every term produced by `buildNew` arises from a successful attempted
merge: its pattern is the combined pattern, its cover set the deduplicated
union, its `used` flag fresh. -/
theorem buildNew_sound (atts : List (Term × Term)) :
    ∀ t' ∈ buildNew atts, ∃ pr ∈ atts,
      combineBinary pr.1.binary pr.2.binary = some t'.binary ∧
      t'.minterms = dedupKeepFirst (pr.1.minterms ++ pr.2.minterms) ∧ t'.used = false := by
  have main : ∀ (l : List (Term × Term)) (acc : List Term),
      (∀ t' ∈ List.foldl buildNewStep acc l,
        t' ∈ acc ∨ ∃ pr ∈ l, combineBinary pr.1.binary pr.2.binary = some t'.binary ∧
          t'.minterms = dedupKeepFirst (pr.1.minterms ++ pr.2.minterms) ∧
          t'.used = false) := by
    intro l
    induction l with
    | nil => intro acc t' h; exact Or.inl h
    | cons p ps ih =>
        intro acc t' h
        simp only [List.foldl_cons] at h
        rcases ih (buildNewStep acc p) t' h with hacc | ⟨pr, hpr, hh⟩
        · cases hc : combineBinary p.1.binary p.2.binary with
          | none =>
              rw [buildNewStep_none acc p hc] at hacc
              exact Or.inl hacc
          | some c =>
              rw [buildNewStep_some acc p c hc] at hacc
              by_cases hex : acc.any (fun t => t.binary = c) = true
              · rw [if_pos hex] at hacc
                exact Or.inl hacc
              · rw [if_neg hex] at hacc
                rcases List.mem_append.mp hacc with hacc | hacc
                · exact Or.inl hacc
                · rw [List.mem_singleton] at hacc
                  subst hacc
                  exact Or.inr ⟨p, List.mem_cons_self _ _, hc, rfl, rfl⟩
        · exact Or.inr ⟨pr, List.mem_cons_of_mem _ hpr, hh⟩
  intro t' h
  rcases main atts [] t' h with hacc | hfound
  · exact absurd hacc (List.not_mem_nil t')
  · exact hfound

/-- Patterns present in the accumulator survive the rest of the fold. -/
theorem buildNew_grow (l : List (Term × Term)) :
    ∀ (acc : List Term) (t' : Term), t' ∈ acc →
      ∃ t'' ∈ List.foldl buildNewStep acc l, t''.binary = t'.binary := by
  induction l with
  | nil => intro acc t' h; exact ⟨t', h, rfl⟩
  | cons p ps ih =>
      intro acc t' h
      simp only [List.foldl_cons]
      apply ih (buildNewStep acc p) t'
      cases hcc : combineBinary p.1.binary p.2.binary with
      | none =>
          rw [buildNewStep_none acc p hcc]
          exact h
      | some c' =>
          rw [buildNewStep_some acc p c' hcc]
          by_cases hex : acc.any (fun t => t.binary = c') = true
          · rw [if_pos hex]
            exact h
          · rw [if_neg hex]
            exact List.mem_append_left _ h

/-- Every successful attempted merge leaves its combined pattern in
`buildNew`'s output (possibly contributed by an earlier equal pattern). -/
theorem buildNew_complete (atts : List (Term × Term)) (pr : Term × Term) (c : List Char)
    (hpr : pr ∈ atts) (hc : combineBinary pr.1.binary pr.2.binary = some c) :
    ∃ t' ∈ buildNew atts, t'.binary = c := by
  have main : ∀ (l : List (Term × Term)) (acc : List Term), pr ∈ l →
      ∃ t' ∈ List.foldl buildNewStep acc l, t'.binary = c := by
    intro l
    induction l with
    | nil => intro acc h; exact absurd h (List.not_mem_nil pr)
    | cons p ps ih =>
        intro acc h
        simp only [List.foldl_cons]
        rcases List.mem_cons.mp h with h | h
        · subst h
          rw [buildNewStep_some acc pr c hc]
          by_cases hex : acc.any (fun t => t.binary = c) = true
          · rw [if_pos hex]
            obtain ⟨t0, ht0, ht0c⟩ := List.any_eq_true.mp hex
            obtain ⟨t'', ht'', hb⟩ := buildNew_grow ps acc t0 ht0
            exact ⟨t'', ht'', by rw [hb]; exact of_decide_eq_true ht0c⟩
          · rw [if_neg hex]
            obtain ⟨t'', ht'', hb⟩ := buildNew_grow ps _
              (⟨c, dedupKeepFirst (pr.1.minterms ++ pr.2.minterms), false⟩ : Term)
              (List.mem_append_right _ (List.mem_singleton_self _))
            exact ⟨t'', ht'', hb⟩
        · exact ih _ h
  exact main atts [] hpr

/-- The patterns in `buildNew`'s output are pairwise distinct. -/
theorem buildNew_nodup (atts : List (Term × Term)) :
    ((buildNew atts).map (fun t => t.binary)).Nodup := by
  have main : ∀ (l : List (Term × Term)) (acc : List Term),
      ((acc.map (fun t => t.binary)).Nodup) →
      ((List.foldl buildNewStep acc l).map (fun t => t.binary)).Nodup := by
    intro l
    induction l with
    | nil => intro acc h; exact h
    | cons p ps ih =>
        intro acc h
        simp only [List.foldl_cons]
        apply ih
        cases hcc : combineBinary p.1.binary p.2.binary with
        | none =>
            rw [buildNewStep_none acc p hcc]
            exact h
        | some c' =>
            rw [buildNewStep_some acc p c' hcc]
            by_cases hex : acc.any (fun t => t.binary = c') = true
            · rw [if_pos hex]
              exact h
            · rw [if_neg hex]
              rw [List.map_append, List.map_singleton]
              apply List.Nodup.append h (List.nodup_singleton _)
              intro x hx hx'
              rw [List.mem_singleton] at hx'
              subst hx'
              apply hex
              rw [List.any_eq_true]
              simp only [List.mem_map] at hx
              obtain ⟨t0, ht0, hb⟩ := hx
              exact ⟨t0, ht0, by simp [hb]⟩
  exact main atts [] (by simp)

/-! ## Pass-level lemmas: attempted pairs, used-marking, the step -/

theorem groupByOnes_mem (terms : List Term) (g : List Term) (hg : g ∈ groupByOnes terms) :
    ∀ t ∈ g, t ∈ terms := by
  simp only [groupByOnes, List.mem_map, List.mem_filter] at hg
  obtain ⟨c, _, rfl⟩ := hg
  intro t ht
  exact (List.mem_filter.mp ht).1

theorem attempts_mem_terms (terms : List Term) (pr : Term × Term)
    (h : pr ∈ attempts (groupByOnes terms)) : pr.1 ∈ terms ∧ pr.2 ∈ terms := by
  simp only [attempts, List.mem_flatMap, List.mem_map] at h
  obtain ⟨g, hg, t1, ht1, t2, ht2, rfl⟩ := h
  have hz := List.of_mem_zip hg
  have hg1 : g.1 ∈ groupByOnes terms := hz.1
  have hg2 : g.2 ∈ groupByOnes terms := (List.tail_sublist _).mem hz.2
  exact ⟨groupByOnes_mem terms g.1 hg1 t1 ht1, groupByOnes_mem terms g.2 hg2 t2 ht2⟩

theorem markUsed_mem_inv (terms : List Term) (atts : List (Term × Term)) (t' : Term)
    (h : t' ∈ markUsed terms atts) :
    ∃ t ∈ terms, t'.binary = t.binary ∧ t'.minterms = t.minterms := by
  simp only [markUsed, List.mem_map] at h
  obtain ⟨t, ht, rfl⟩ := h
  by_cases hc : (atts.any
      (fun p => (combineBinary p.1.binary p.2.binary).isSome && (p.1 = t ∨ p.2 = t))) = true
  · rw [if_pos hc]
    exact ⟨t, ht, rfl, rfl⟩
  · rw [if_neg hc]
    exact ⟨t, ht, rfl, rfl⟩

theorem markUsed_unmarked_mem (terms : List Term) (atts : List (Term × Term)) (t : Term)
    (ht : t ∈ terms) (hall : ∀ t' ∈ terms, t'.used = false)
    (hnm : ¬ (atts.any
      (fun p => (combineBinary p.1.binary p.2.binary).isSome && (p.1 = t ∨ p.2 = t))) = true) :
    t ∈ (markUsed terms atts).filter (fun t => !t.used) := by
  rw [List.mem_filter]
  constructor
  · simp only [markUsed, List.mem_map]
    exact ⟨t, ht, by rw [if_neg hnm]⟩
  · rw [hall t ht]
    rfl

theorem marked_pair (atts : List (Term × Term)) (t : Term)
    (hm : (atts.any
      (fun p => (combineBinary p.1.binary p.2.binary).isSome && (p.1 = t ∨ p.2 = t))) = true) :
    ∃ pr ∈ atts, (combineBinary pr.1.binary pr.2.binary).isSome = true ∧
      (pr.1 = t ∨ pr.2 = t) := by
  obtain ⟨pr, hpr, hc⟩ := List.any_eq_true.mp hm
  rw [Bool.and_eq_true] at hc
  exact ⟨pr, hpr, hc.1, of_decide_eq_true hc.2⟩

theorem TermOK_of_fields (n : Nat) (S : List Nat) (t t' : Term)
    (hB : t'.binary = t.binary) (hM : t'.minterms = t.minterms)
    (h : TermOK n S t) : TermOK n S t' := by
  obtain ⟨h1, h2, h3, h4⟩ := h
  exact ⟨by rw [hB]; exact h1, by rw [hB]; exact h2,
    by rw [hB, hM]; exact h3, by rw [hM]; exact h4⟩

theorem qmStep_marked_ok (n : Nat) (S : List Nat) (terms : List Term)
    (hok : ∀ t ∈ terms, TermOK n S t) :
    ∀ t' ∈ (qmStep terms).1, TermOK n S t' := by
  intro t' ht'
  obtain ⟨t, ht, hB, hM⟩ := markUsed_mem_inv terms _ t' ht'
  exact TermOK_of_fields n S t t' hB hM (hok t ht)

theorem qmStep_new_ok (n : Nat) (S : List Nat) (terms : List Term)
    (hok : ∀ t ∈ terms, TermOK n S t) :
    ∀ t' ∈ (qmStep terms).2, TermOK n S t' := by
  intro t' ht'
  obtain ⟨pr, hpr, hc, hM, _⟩ := buildNew_sound _ t' ht'
  obtain ⟨h1m, h2m⟩ := attempts_mem_terms terms pr hpr
  obtain ⟨l1, t1tri, c1, s1⟩ := hok pr.1 h1m
  obtain ⟨l2, t2tri, c2, s2⟩ := hok pr.2 h2m
  obtain ⟨i, hi, hlen, hcset, hne, hda, hdb, hagree⟩ :=
    combineBinary_some_inv pr.1.binary pr.2.binary t'.binary hc
  have hmatch : ∀ m : Nat,
      cubeMatches t'.binary (natToBits n m) =
        (cubeMatches pr.1.binary (natToBits n m) || cubeMatches pr.2.binary (natToBits n m)) := by
    intro m
    rw [hcset]
    exact matches_set_dash pr.1.binary pr.2.binary (natToBits n m) i hlen
      (by rw [natToBits_length, l1]) hi hne hda hdb hagree t1tri t2tri
      (natToBits_mem n m)
  refine ⟨by rw [hcset, List.length_set]; exact l1, ?_, ?_, ?_⟩
  · intro c hcmem
    rw [hcset] at hcmem
    rcases List.mem_or_eq_of_mem_set hcmem with h | h
    · exact t1tri c h
    · exact Or.inr (Or.inr h)
  · intro m
    rw [hM, mem_dedupKeepFirst, List.mem_append, c1, c2, hmatch m, Bool.or_eq_true]
    tauto
  · intro m hm
    rw [hM, mem_dedupKeepFirst, List.mem_append] at hm
    rcases hm with h | h
    · exact s1 m h
    · exact s2 m h

theorem qmStep_cover (n : Nat) (S : List Nat) (terms : List Term)
    (hok : ∀ t ∈ terms, TermOK n S t) (hall : ∀ t ∈ terms, t.used = false)
    (t : Term) (ht : t ∈ terms) :
    t ∈ (qmStep terms).1.filter (fun t => !t.used) ∨
      ∃ t' ∈ (qmStep terms).2, ∀ m ∈ t.minterms, m ∈ t'.minterms := by
  by_cases hm : ((attempts (groupByOnes terms)).any
      (fun p => (combineBinary p.1.binary p.2.binary).isSome && (p.1 = t ∨ p.2 = t))) = true
  · right
    obtain ⟨pr, hpr, hsome, hor⟩ := marked_pair _ t hm
    obtain ⟨c, hc⟩ := Option.isSome_iff_exists.mp hsome
    obtain ⟨t'', ht'', hb⟩ := buildNew_complete _ pr c hpr hc
    have hok'' := qmStep_new_ok n S terms hok t'' ht''
    obtain ⟨h1m, h2m⟩ := attempts_mem_terms terms pr hpr
    obtain ⟨l1, t1tri, c1, s1⟩ := hok pr.1 h1m
    obtain ⟨l2, t2tri, c2, s2⟩ := hok pr.2 h2m
    obtain ⟨i, hi, hlen, hcset, hne, hda, hdb, hagree⟩ :=
      combineBinary_some_inv pr.1.binary pr.2.binary c hc
    refine ⟨t'', ht'', ?_⟩
    intro m hmm
    have hmatchc : cubeMatches c (natToBits n m) = true := by
      rw [hcset,
        matches_set_dash pr.1.binary pr.2.binary (natToBits n m) i hlen
          (by rw [natToBits_length, l1]) hi hne hda hdb hagree t1tri t2tri
          (natToBits_mem n m), Bool.or_eq_true]
      rcases hor with h | h
      · left
        rw [h]
        exact ((hok t ht).2.2.1 m).mp hmm |>.2
      · right
        rw [h]
        exact ((hok t ht).2.2.1 m).mp hmm |>.2
    have hlt : m < 2 ^ n := (((hok t ht).2.2.1 m).mp hmm).1
    exact (hok''.2.2.1 m).mpr ⟨hlt, by rw [hb]; exact hmatchc⟩
  · left
    exact markUsed_unmarked_mem terms _ t ht hall hm

theorem buildNew_unused (atts : List (Term × Term)) :
    ∀ t' ∈ buildNew atts, t'.used = false := by
  intro t' h
  obtain ⟨_, _, _, _, hu⟩ := buildNew_sound atts t' h
  exact hu

/-! ## Loop-level lemmas -/

theorem qmLoop_succ_eq (fuel : Nat) (terms : List Term) :
    qmLoop (fuel + 1) terms =
      if (qmStep terms).2.isEmpty then
        ((qmStep terms).1.filter (fun t => !t.used)) ++
          ((qmStep terms).1.filter (fun t => !t.used))
      else ((qmStep terms).1.filter (fun t => !t.used)) ++ qmLoop fuel (qmStep terms).2 :=
  rfl

theorem qmLoop_ok (n : Nat) (S : List Nat) :
    ∀ (fuel : Nat) (terms : List Term), (∀ t ∈ terms, TermOK n S t) →
      ∀ t' ∈ qmLoop fuel terms, TermOK n S t' := by
  intro fuel
  induction fuel with
  | zero =>
      intro terms hok t' ht'
      exact hok t' (List.mem_filter.mp ht').1
  | succ f ih =>
      intro terms hok t' ht'
      rw [qmLoop_succ_eq] at ht'
      by_cases he : (qmStep terms).2.isEmpty
      · rw [if_pos he] at ht'
        rcases List.mem_append.mp ht' with h | h <;>
          exact qmStep_marked_ok n S terms hok t' (List.mem_filter.mp h).1
      · rw [if_neg he] at ht'
        rcases List.mem_append.mp ht' with h | h
        · exact qmStep_marked_ok n S terms hok t' (List.mem_filter.mp h).1
        · exact ih (qmStep terms).2 (qmStep_new_ok n S terms hok) t' h

theorem qmLoop_cover (n : Nat) (S : List Nat) :
    ∀ (fuel : Nat) (terms : List Term), (∀ t ∈ terms, TermOK n S t) →
      (∀ t ∈ terms, t.used = false) →
      ∀ t0 ∈ terms, ∀ m ∈ t0.minterms, ∃ t ∈ qmLoop fuel terms, m ∈ t.minterms := by
  intro fuel
  induction fuel with
  | zero =>
      intro terms _ hall t0 ht0 m hm
      refine ⟨t0, ?_, hm⟩
      show t0 ∈ terms.filter (fun t => !t.used)
      rw [List.mem_filter]
      exact ⟨ht0, by rw [hall t0 ht0]; rfl⟩
  | succ f ih =>
      intro terms hok hall t0 ht0 m hm
      rw [qmLoop_succ_eq]
      rcases qmStep_cover n S terms hok hall t0 ht0 with h | ⟨t', ht', hsub⟩
      · by_cases he : (qmStep terms).2.isEmpty
        · rw [if_pos he]
          exact ⟨t0, List.mem_append_left _ h, hm⟩
        · rw [if_neg he]
          exact ⟨t0, List.mem_append_left _ h, hm⟩
      · by_cases he : (qmStep terms).2.isEmpty
        · exfalso
          rw [List.isEmpty_iff] at he
          rw [he] at ht'
          exact List.not_mem_nil t' ht'
        · rw [if_neg he]
          obtain ⟨t'', ht'', hm''⟩ := ih (qmStep terms).2 (qmStep_new_ok n S terms hok)
            (buildNew_unused _) t' ht' m (hsub m hm)
          exact ⟨t'', List.mem_append_right _ ht'', hm''⟩

/-! ## `quineMcCluskey`-level lemmas -/

theorem initial_terms_ok (S : List Nat) (n : Nat) (hb : ∀ m ∈ S, m < 2 ^ n) :
    ∀ t ∈ S.map (fun m => (⟨natToBits n m, [m], false⟩ : Term)), TermOK n S t := by
  intro t ht
  simp only [List.mem_map] at ht
  obtain ⟨m, hmS, rfl⟩ := ht
  refine ⟨natToBits_length n m, natToBits_tri n m, ?_, ?_⟩
  · intro m'
    simp only [List.mem_singleton]
    constructor
    · intro he
      refine ⟨he ▸ hb m hmS, ?_⟩
      rw [he, cubeMatches_nodash _ _ (fun j hj => natToBits_nodash n m j
        (by simpa [natToBits_length] using hj))]
    · rintro ⟨hm', hmt⟩
      rw [cubeMatches_nodash _ _ (fun j hj => natToBits_nodash n m j
        (by simpa [natToBits_length] using hj))] at hmt
      exact (natToBits_inj n m m' (hb m hmS) hm' hmt).symm
  · intro m' hm'
    rw [List.mem_singleton] at hm'
    exact hm' ▸ hmS

theorem quineMcCluskey_ok (S : List Nat) (n : Nat) (hb : ∀ m ∈ S, m < 2 ^ n) :
    ∀ t ∈ quineMcCluskey S n, TermOK n S t :=
  qmLoop_ok n S n _ (initial_terms_ok S n hb)

theorem quineMcCluskey_cover (S : List Nat) (n : Nat) (hb : ∀ m ∈ S, m < 2 ^ n) :
    ∀ m ∈ S, ∃ t ∈ quineMcCluskey S n, m ∈ t.minterms := by
  intro m hm
  exact qmLoop_cover n S n _ (initial_terms_ok S n hb)
    (by intro t ht; simp only [List.mem_map] at ht; obtain ⟨_, _, rfl⟩ := ht; rfl)
    ⟨natToBits n m, [m], false⟩ (List.mem_map.mpr ⟨m, hm, rfl⟩) m (List.mem_singleton_self m)

/-! ## Coverage-solver lemmas -/

theorem countRemaining_pos_of (t : Term) (unc : List Nat) (m : Nat)
    (hm : m ∈ t.minterms) (hu : m ∈ unc) : 0 < countRemaining t unc :=
  List.length_pos_of_mem (List.mem_filter.mpr ⟨hm, by simpa using hu⟩)

theorem countRemaining_ex (t : Term) (unc : List Nat) (h : 0 < countRemaining t unc) :
    ∃ m ∈ t.minterms, m ∈ unc := by
  obtain ⟨m, hm⟩ := List.exists_mem_of_length_pos h
  rw [List.mem_filter] at hm
  exact ⟨m, hm.1, by simpa using hm.2⟩

/-- Characterization of the best-candidate fold: if it reports a candidate,
that candidate is eligible with positive remaining coverage and is the
first list element attaining the maximum (strictly better than everything
before it, at least as good as everything after). -/
theorem selectBest_fold_spec (ess add : List Term) (unc : List Nat) :
    ∀ (l : List Term) (acc : Option Term × Nat) (b : Term),
      (List.foldl (selectBestStep ess add unc) acc l).1 = some b →
      (acc.1 = some b ∧ (List.foldl (selectBestStep ess add unc) acc l).2 = acc.2 ∧
        ∀ a ∈ l, (!includesTerm ess a && !includesTerm add a) = true →
          countRemaining a unc ≤ acc.2) ∨
      (∃ l1 l2, l = l1 ++ b :: l2 ∧
        (!includesTerm ess b && !includesTerm add b) = true ∧
        (List.foldl (selectBestStep ess add unc) acc l).2 = countRemaining b unc ∧
        acc.2 < countRemaining b unc ∧
        (∀ a ∈ l1, (!includesTerm ess a && !includesTerm add a) = true →
          countRemaining a unc < countRemaining b unc) ∧
        (∀ a ∈ l2, (!includesTerm ess a && !includesTerm add a) = true →
          countRemaining a unc ≤ countRemaining b unc)) := by
  intro l
  induction l with
  | nil =>
      intro acc b h
      exact Or.inl ⟨h, rfl, by intro a ha; exact absurd ha (List.not_mem_nil a)⟩
  | cons t l ih =>
      intro acc b h
      rw [List.foldl_cons] at h ⊢
      by_cases he : (!includesTerm ess t && !includesTerm add t) = true
      · by_cases hc : countRemaining t unc > acc.2
        · have hstep : selectBestStep ess add unc acc t = (some t, countRemaining t unc) := by
            unfold selectBestStep
            rw [if_pos he, if_pos hc]
          rw [hstep] at h ⊢
          rcases ih (some t, countRemaining t unc) b h with ⟨h1, h2, h3⟩ |
            ⟨l1, l2, hsp, hel, hres, hlt, hbefore, hafter⟩
          · have ht : t = b := by simpa using h1
            subst ht
            refine Or.inr ⟨[], l, rfl, he, h2, hc, ?_, ?_⟩
            · intro a ha
              exact absurd ha (List.not_mem_nil a)
            · intro a ha hea
              exact h3 a ha hea
          · refine Or.inr ⟨t :: l1, l2, by rw [hsp]; rfl, hel, hres, by omega, ?_, hafter⟩
            intro a ha hea
            rcases List.mem_cons.mp ha with rfl | ha
            · simpa using hlt
            · exact hbefore a ha hea
        · have hstep : selectBestStep ess add unc acc t = acc := by
            unfold selectBestStep
            rw [if_pos he, if_neg hc]
          rw [hstep] at h ⊢
          rcases ih acc b h with ⟨h1, h2, h3⟩ |
            ⟨l1, l2, hsp, hel, hres, hlt, hbefore, hafter⟩
          · refine Or.inl ⟨h1, h2, ?_⟩
            intro a ha hea
            rcases List.mem_cons.mp ha with rfl | ha
            · omega
            · exact h3 a ha hea
          · refine Or.inr ⟨t :: l1, l2, by rw [hsp]; rfl, hel, hres, hlt, ?_, hafter⟩
            intro a ha hea
            rcases List.mem_cons.mp ha with rfl | ha
            · omega
            · exact hbefore a ha hea
      · have hstep : selectBestStep ess add unc acc t = acc := by
          unfold selectBestStep
          rw [if_neg he]
        rw [hstep] at h ⊢
        rcases ih acc b h with ⟨h1, h2, h3⟩ |
          ⟨l1, l2, hsp, hel, hres, hlt, hbefore, hafter⟩
        · refine Or.inl ⟨h1, h2, ?_⟩
          intro a ha hea
          rcases List.mem_cons.mp ha with rfl | ha
          · exact absurd hea he
          · exact h3 a ha hea
        · refine Or.inr ⟨t :: l1, l2, by rw [hsp]; rfl, hel, hres, hlt, ?_, hafter⟩
          intro a ha hea
          rcases List.mem_cons.mp ha with rfl | ha
          · exact absurd hea he
          · exact hbefore a ha hea

/-- If the best-candidate fold reports no candidate, every eligible
implicant has zero remaining coverage. -/
theorem selectBest_fold_none (ess add : List Term) (unc : List Nat) :
    ∀ (l : List Term) (acc : Option Term × Nat),
      (List.foldl (selectBestStep ess add unc) acc l).1 = none →
      acc.1 = none ∧ ∀ a ∈ l, (!includesTerm ess a && !includesTerm add a) = true →
        countRemaining a unc ≤ acc.2 := by
  intro l
  induction l with
  | nil =>
      intro acc h
      exact ⟨h, by intro a ha; exact absurd ha (List.not_mem_nil a)⟩
  | cons t l ih =>
      intro acc h
      rw [List.foldl_cons] at h
      by_cases he : (!includesTerm ess t && !includesTerm add t) = true
      · by_cases hc : countRemaining t unc > acc.2
        · have hstep : selectBestStep ess add unc acc t = (some t, countRemaining t unc) := by
            unfold selectBestStep
            rw [if_pos he, if_pos hc]
          rw [hstep] at h
          have := (ih _ h).1
          exact absurd this (by simp)
        · have hstep : selectBestStep ess add unc acc t = acc := by
            unfold selectBestStep
            rw [if_pos he, if_neg hc]
          rw [hstep] at h
          obtain ⟨h1, h2⟩ := ih acc h
          refine ⟨h1, ?_⟩
          intro a ha hea
          rcases List.mem_cons.mp ha with rfl | ha
          · omega
          · exact h2 a ha hea
      · have hstep : selectBestStep ess add unc acc t = acc := by
          unfold selectBestStep
          rw [if_neg he]
        rw [hstep] at h
        obtain ⟨h1, h2⟩ := ih acc h
        refine ⟨h1, ?_⟩
        intro a ha hea
        rcases List.mem_cons.mp ha with rfl | ha
        · exact absurd hea he
        · exact h2 a ha hea

theorem selectBest_some_spec (pis ess add : List Term) (unc : List Nat) (b : Term)
    (h : selectBest pis ess add unc = some b) :
    (!includesTerm ess b && !includesTerm add b) = true ∧
    0 < countRemaining b unc ∧
    ∃ l1 l2, pis = l1 ++ b :: l2 ∧
      (∀ a ∈ l1, (!includesTerm ess a && !includesTerm add a) = true →
        countRemaining a unc < countRemaining b unc) ∧
      (∀ a ∈ l2, (!includesTerm ess a && !includesTerm add a) = true →
        countRemaining a unc ≤ countRemaining b unc) := by
  unfold selectBest at h
  rcases selectBest_fold_spec ess add unc pis (none, 0) b h with ⟨h1, _, _⟩ | hr
  · exact absurd h1 (by simp)
  · obtain ⟨l1, l2, hsp, hel, _, hlt, hbefore, hafter⟩ := hr
    exact ⟨hel, by simpa using hlt, l1, l2, hsp, hbefore, hafter⟩

theorem selectBest_mem (pis ess add : List Term) (unc : List Nat) (b : Term)
    (h : selectBest pis ess add unc = some b) : b ∈ pis := by
  obtain ⟨_, _, l1, l2, hsp, _, _⟩ := selectBest_some_spec pis ess add unc b h
  rw [hsp]
  exact List.mem_append_right _ (List.mem_cons_self _ _)

theorem selectBest_none_all (pis ess add : List Term) (unc : List Nat)
    (h : selectBest pis ess add unc = none) :
    ∀ a ∈ pis, (!includesTerm ess a && !includesTerm add a) = true →
      countRemaining a unc = 0 := by
  unfold selectBest at h
  obtain ⟨_, h2⟩ := selectBest_fold_none ess add unc pis (none, 0) h
  intro a ha hea
  have := h2 a ha hea
  omega

theorem greedyLoop_succ_eq (pis ess : List Term) (fuel : Nat) (add : List Term)
    (unc : List Nat) :
    greedyLoop pis ess (fuel + 1) add unc =
      if unc.isEmpty then add
      else
        match selectBest pis ess add unc with
        | none => add
        | some best =>
            greedyLoop pis ess fuel (add ++ [best])
              (unc.filter (fun m => !(m ∈ best.minterms))) :=
  rfl

theorem greedy_mono (pis ess : List Term) :
    ∀ (fuel : Nat) (add : List Term) (unc : List Nat),
      ∃ extra, greedyLoop pis ess fuel add unc = add ++ extra := by
  intro fuel
  induction fuel with
  | zero => intro add unc; exact ⟨[], by simp [greedyLoop]⟩
  | succ f ih =>
      intro add unc
      rw [greedyLoop_succ_eq]
      by_cases hunc : unc.isEmpty
      · rw [if_pos hunc]
        exact ⟨[], by simp⟩
      · rw [if_neg hunc]
        cases hsel : selectBest pis ess add unc with
        | none => exact ⟨[], by simp⟩
        | some b =>
            obtain ⟨extra, hex⟩ := ih (add ++ [b]) (unc.filter (fun m => !(m ∈ b.minterms)))
            refine ⟨[b] ++ extra, ?_⟩
            show greedyLoop pis ess f (add ++ [b]) (unc.filter (fun m => !(m ∈ b.minterms))) =
              add ++ ([b] ++ extra)
            rw [hex, List.append_assoc]

theorem greedy_sub (pis ess : List Term) :
    ∀ (fuel : Nat) (add : List Term) (unc : List Nat),
      ∀ t ∈ greedyLoop pis ess fuel add unc, t ∈ add ∨ t ∈ pis := by
  intro fuel
  induction fuel with
  | zero => intro add unc t ht; exact Or.inl ht
  | succ f ih =>
      intro add unc t ht
      rw [greedyLoop_succ_eq] at ht
      by_cases hunc : unc.isEmpty
      · rw [if_pos hunc] at ht
        exact Or.inl ht
      · rw [if_neg hunc] at ht
        cases hsel : selectBest pis ess add unc with
        | none =>
            rw [hsel] at ht
            exact Or.inl ht
        | some b =>
            rw [hsel] at ht
            rcases ih (add ++ [b]) _ t ht with h | h
            · rcases List.mem_append.mp h with h | h
              · exact Or.inl h
              · rw [List.mem_singleton] at h
                exact Or.inr (h ▸ selectBest_mem pis ess add unc b hsel)
            · exact Or.inr h

theorem greedy_covers (pis ess : List Term) :
    ∀ (fuel : Nat) (add : List Term) (unc : List Nat), unc.length ≤ fuel →
      (∀ m ∈ unc, ∃ t ∈ pis, m ∈ t.minterms ∧ includesTerm ess t = false ∧
        includesTerm add t = false) →
      ∀ m ∈ unc, ∃ t ∈ greedyLoop pis ess fuel add unc, m ∈ t.minterms := by
  intro fuel
  induction fuel with
  | zero =>
      intro add unc hf _ m hm
      have : unc = [] := List.length_eq_zero.mp (by omega)
      rw [this] at hm
      exact absurd hm (List.not_mem_nil m)
  | succ f ih =>
      intro add unc hf hinv m hm
      rw [greedyLoop_succ_eq]
      have hunc : ¬ unc.isEmpty = true := by
        rw [List.isEmpty_iff]
        intro hh
        rw [hh] at hm
        exact List.not_mem_nil m hm
      rw [if_neg hunc]
      cases hsel : selectBest pis ess add unc with
      | none =>
          exfalso
          obtain ⟨t, htp, htm, hte, hta⟩ := hinv m hm
          have helig : (!includesTerm ess t && !includesTerm add t) = true := by
            rw [hte, hta]
            rfl
          have := selectBest_none_all pis ess add unc hsel t htp helig
          have hpos := countRemaining_pos_of t unc m htm hm
          omega
      | some b =>
          show ∃ t ∈ greedyLoop pis ess f (add ++ [b])
            (unc.filter (fun m => !(m ∈ b.minterms))), m ∈ t.minterms
          obtain ⟨helig, hpos, _⟩ := selectBest_some_spec pis ess add unc b hsel
          by_cases hmb : m ∈ b.minterms
          · obtain ⟨extra, hex⟩ :=
              greedy_mono pis ess f (add ++ [b]) (unc.filter (fun m => !(m ∈ b.minterms)))
            refine ⟨b, ?_, hmb⟩
            rw [hex]
            exact List.mem_append_left _ (List.mem_append_right _ (List.mem_singleton_self b))
          · have hm' : m ∈ unc.filter (fun m => !(m ∈ b.minterms)) :=
              List.mem_filter.mpr ⟨hm, by simpa using hmb⟩
            have hlen : (unc.filter (fun m => !(m ∈ b.minterms))).length < unc.length := by
              rw [List.length_filter_lt_length_iff_exists]
              obtain ⟨m0, hm0b, hm0u⟩ := countRemaining_ex b unc hpos
              exact ⟨m0, hm0u, by simpa using hm0b⟩
            apply ih (add ++ [b]) _ (by omega) ?_ m hm'
            intro m' hm'f
            have hm'u : m' ∈ unc := (List.mem_filter.mp hm'f).1
            have hm'nb : ¬ m' ∈ b.minterms := by
              have := (List.mem_filter.mp hm'f).2
              simpa using this
            obtain ⟨t, htp, htm, hte, hta⟩ := hinv m' hm'u
            refine ⟨t, htp, htm, hte, ?_⟩
            by_cases htb : t = b
            · exact absurd (htb ▸ htm) hm'nb
            · rw [Bool.eq_false_iff]
              intro hcontra
              rcases (includesTerm_append_singleton add b t).mp hcontra with hh | hh
              · rw [hta] at hh
                exact Bool.noConfusion hh
              · exact htb hh

/-! ## Essential-part lemmas -/

theorem essentialPart_sub (pis : List Term) (minterms : List Nat) :
    ∀ t ∈ essentialPart pis minterms, t ∈ pis := by
  intro t ht
  simp only [essentialPart, List.mem_map] at ht
  obtain ⟨i, hi, rfl⟩ := ht
  rw [mem_dedupKeepFirst] at hi
  rw [List.mem_filterMap] at hi
  obtain ⟨m, _, hf⟩ := hi
  have : i ∈ coverageList pis m := by
    cases hcl : coverageList pis m with
    | nil => rw [hcl] at hf; exact Option.noConfusion hf
    | cons x xs =>
        cases xs with
        | nil =>
            rw [hcl] at hf
            simp only [Option.some.injEq] at hf
            rw [hf]
            exact List.mem_singleton_self i
        | cons y ys => rw [hcl] at hf; exact Option.noConfusion hf
  obtain ⟨hlt, _⟩ := coverageList_lt pis m i this
  rw [List.getD_eq_getElem _ _ hlt]
  exact List.getElem_mem hlt

theorem essentialPart_unique_mem (pis : List Term) (minterms : List Nat) (m i : Nat)
    (hm : m ∈ minterms) (hcl : coverageList pis m = [i]) :
    pis.getD i ⟨[], [], false⟩ ∈ essentialPart pis minterms := by
  simp only [essentialPart, List.mem_map]
  refine ⟨i, ?_, rfl⟩
  rw [mem_dedupKeepFirst, List.mem_filterMap]
  refine ⟨m, (mem_sortNatDedup minterms m).mpr hm, ?_⟩
  rw [hcl]

/-- Full characterization of the implicants selected as essential: an
implicant is in `essentialPart` exactly when it sits at an index that is
the sole coverage-map entry of some required minterm. -/
theorem essentialPart_mem_iff (pis : List Term) (minterms : List Nat) (t : Term) :
    t ∈ essentialPart pis minterms ↔
      ∃ m ∈ minterms, ∃ i, coverageList pis m = [i] ∧
        t = pis.getD i ⟨[], [], false⟩ := by
  constructor
  · intro ht
    simp only [essentialPart, List.mem_map] at ht
    obtain ⟨i, hi, rfl⟩ := ht
    rw [mem_dedupKeepFirst, List.mem_filterMap] at hi
    obtain ⟨m, hm, hf⟩ := hi
    refine ⟨m, (mem_sortNatDedup minterms m).mp hm, i, ?_, rfl⟩
    cases hcl : coverageList pis m with
    | nil => rw [hcl] at hf; exact Option.noConfusion hf
    | cons x xs =>
        cases xs with
        | nil =>
            rw [hcl] at hf
            simp only [Option.some.injEq] at hf
            rw [hf]
        | cons y ys => rw [hcl] at hf; exact Option.noConfusion hf
  · rintro ⟨m, hm, i, hcl, rfl⟩
    exact essentialPart_unique_mem pis minterms m i hm hcl

/-! ## `findEssentialPrimeImplicants`-level lemmas -/

theorem findEssential_sub (pis : List Term) (minterms : List Nat) :
    ∀ t ∈ findEssentialPrimeImplicants pis minterms, t ∈ pis := by
  intro t ht
  unfold findEssentialPrimeImplicants at ht
  rcases List.mem_append.mp ht with h | h
  · exact essentialPart_sub pis minterms t h
  · rcases greedy_sub pis _ _ [] _ t h with h | h
    · exact absurd h (List.not_mem_nil t)
    · exact h

theorem findEssential_covers (pis : List Term) (minterms : List Nat)
    (hcov : ∀ m ∈ minterms, ∃ t ∈ pis, m ∈ t.minterms) :
    ∀ m ∈ minterms, ∃ t ∈ findEssentialPrimeImplicants pis minterms, m ∈ t.minterms := by
  intro m hm
  unfold findEssentialPrimeImplicants
  by_cases hcovm :
      ((essentialPart pis minterms).any (fun pi => m ∈ pi.minterms)) = true
  · obtain ⟨pi, hpi, hpim⟩ := List.any_eq_true.mp hcovm
    exact ⟨pi, List.mem_append_left _ hpi, by simpa using hpim⟩
  · have hmu : m ∈ minterms.filter
        (fun m => !((essentialPart pis minterms).any (fun pi => m ∈ pi.minterms))) :=
      List.mem_filter.mpr ⟨hm, by simpa using hcovm⟩
    have hinv : ∀ m' ∈ minterms.filter
        (fun m => !((essentialPart pis minterms).any (fun pi => m ∈ pi.minterms))),
        ∃ t ∈ pis, m' ∈ t.minterms ∧
          includesTerm (essentialPart pis minterms) t = false ∧
          includesTerm [] t = false := by
      intro m' hm'f
      obtain ⟨hm'm, hm'a⟩ := List.mem_filter.mp hm'f
      obtain ⟨t, htp, htm⟩ := hcov m' hm'm
      refine ⟨t, htp, htm, ?_, rfl⟩
      rw [Bool.eq_false_iff]
      intro hcontra
      have ht' : t ∈ essentialPart pis minterms := (includesTerm_iff _ t).mp hcontra
      have : ((essentialPart pis minterms).any (fun pi => m' ∈ pi.minterms)) = true :=
        List.any_eq_true.mpr ⟨t, ht', by simpa using htm⟩
      rw [this] at hm'a
      exact Bool.noConfusion hm'a
    obtain ⟨t, htg, htm⟩ := greedy_covers pis (essentialPart pis minterms) _ [] _
      (Nat.le_refl _) hinv m hmu
    exact ⟨t, List.mem_append_right _ htg, htm⟩

/-! ## C1: the SOP round trip -/

/-- A duplicate-free list of naturals below `2^n` of length `2^n` contains
all of them. -/
theorem full_of_length (S : List Nat) (n : Nat) (hnd : S.Nodup)
    (hb : ∀ m ∈ S, m < 2 ^ n) (hlen : S.length = 2 ^ n) : ∀ j < 2 ^ n, j ∈ S := by
  have hsub : S.toFinset ⊆ Finset.range (2 ^ n) := fun x hx =>
    Finset.mem_range.mpr (hb x (List.mem_toFinset.mp hx))
  have hcard : (Finset.range (2 ^ n)).card ≤ S.toFinset.card := by
    rw [Finset.card_range, List.toFinset_card_of_nodup hnd, hlen]
  have heq := Finset.eq_of_subset_of_card_le hsub hcard
  intro j hj
  have hj' : j ∈ Finset.range (2 ^ n) := Finset.mem_range.mpr hj
  rw [← heq] at hj'
  exact List.mem_toFinset.mp hj'

/-- On the non-constant path, the implicant list `simplify` reports is the
coverage solution over the Quine–McCluskey prime implicants. -/
theorem simplify_middle_epis (S : List Nat) (vars : List String) (n : Nat)
    (h0 : ¬ S.length = 0) (hfull : ¬ S.length = 2 ^ n) :
    (simplify ⟨S, vars, n, []⟩).essentialPrimeImplicants =
      findEssentialPrimeImplicants (quineMcCluskey S n) S := by
  simp [simplify, h0, hfull]

/-- C1.  For every variable count `n ∈ [2,6]` and every subset `S` of
`[0, 2^n)` supplied as the required minterms (with an empty don't-care
set), the SOP expression `simplify` returns evaluates to 1 exactly on the
assignment indices in `S`: at every `i < 2^n` the truth value of the
rendered SOP (disjunction of the returned implicants' product terms, or
the constant the string `"0"`/`"1"` denotes) equals membership of `i` in
`S`. -/
theorem simplify_sop_round_trip (S : List Nat) (vars : List String) (n : Nat)
    (h2 : 2 ≤ n) (h6 : n ≤ 6) (hnd : S.Nodup) (hb : ∀ m ∈ S, m < 2 ^ n) :
    ∀ i, i < 2 ^ n → sopEvalAt (simplify ⟨S, vars, n, []⟩) n i = decide (i ∈ S) := by
  intro i hi
  by_cases h0 : S.length = 0
  · have hS : S = [] := List.length_eq_zero.mp h0
    subst hS
    simp [simplify, sopEvalAt]
  · by_cases hfull : S.length = 2 ^ n
    · have hall := full_of_length S n hnd hb hfull
      have hres : simplify ⟨S, vars, n, []⟩ =
          { sop := "1", pos := "0", primeImplicants := [],
            essentialPrimeImplicants := [] } := by
        simp [simplify, h0, hfull]
      rw [hres]
      simp [sopEvalAt, hall i hi]
    · have hepis := simplify_middle_epis S vars n h0 hfull
      have hok := quineMcCluskey_ok S n hb
      have hfe_cov := findEssential_covers (quineMcCluskey S n) S
        (quineMcCluskey_cover S n hb)
      have hfe_sub := findEssential_sub (quineMcCluskey S n) S
      have hnonempty :
          (findEssentialPrimeImplicants (quineMcCluskey S n) S).isEmpty = false := by
        obtain ⟨m, hm⟩ := List.exists_mem_of_length_pos
          (show 0 < S.length by omega)
        obtain ⟨t, ht, _⟩ := hfe_cov m hm
        rw [Bool.eq_false_iff]
        intro hh
        rw [List.isEmpty_iff] at hh
        rw [hh] at ht
        exact List.not_mem_nil t ht
      rw [sopEvalAt, hepis, hnonempty]
      simp only [Bool.false_eq_true, if_false]
      by_cases hiS : i ∈ S
      · rw [decide_eq_true hiS, List.any_eq_true]
        obtain ⟨t, ht, hm⟩ := hfe_cov i hiS
        have hokt := hok t (hfe_sub t ht)
        exact ⟨t, ht, ((hokt.2.2.1 i).mp hm).2⟩
      · rw [decide_eq_false hiS, Bool.eq_false_iff]
        intro hany
        obtain ⟨t, ht, hmatch⟩ := List.any_eq_true.mp hany
        have hokt := hok t (hfe_sub t ht)
        have hmem : i ∈ t.minterms := (hokt.2.2.1 i).mpr ⟨hi, hmatch⟩
        exact hiS (hokt.2.2.2 i hmem)

/-- Witness for C1: minterms `{1, 2}` over two variables, evaluated at
index 1 (covered) — the SOP of `A'B + AB'` is true there. -/
theorem simplify_sop_round_trip_witness :
    ([1, 2] : List Nat).Nodup ∧
    sopEvalAt (simplify ⟨[1, 2], ["A", "B"], 2, []⟩) 2 1 = decide (1 ∈ ([1, 2] : List Nat)) :=
  ⟨by decide,
    simplify_sop_round_trip [1, 2] ["A", "B"] 2 (by decide) (by decide) (by decide)
      (by decide) 1 (by decide)⟩

/-! ## C2 amended: the composition of the reported essential list -/

/-- C2 amended.  On the non-constant path, the `essentialPrimeImplicants`
list `simplify` returns is exactly `essentialPart` — the implicants that
are the sole coverage-map entry of some required minterm, characterized
both ways by the second conjunct — followed by the implicants the greedy
completion (`greedyLoop`, run on the minterms the essential part leaves
uncovered) adds, which need not uniquely cover anything; every implicant
that is the sole coverage-map entry of some required minterm is contained
in the returned list — none is dropped. -/
theorem essential_list_amended (S : List Nat) (vars : List String) (n : Nat)
    (h0 : ¬ S.length = 0) (hfull : ¬ S.length = 2 ^ n) :
    ((simplify ⟨S, vars, n, []⟩).essentialPrimeImplicants =
      essentialPart (quineMcCluskey S n) S ++
        greedyLoop (quineMcCluskey S n) (essentialPart (quineMcCluskey S n) S)
          (S.filter (fun m =>
            !((essentialPart (quineMcCluskey S n) S).any
              (fun pi => m ∈ pi.minterms)))).length
          []
          (S.filter (fun m =>
            !((essentialPart (quineMcCluskey S n) S).any
              (fun pi => m ∈ pi.minterms))))) ∧
    (∀ t : Term, t ∈ essentialPart (quineMcCluskey S n) S ↔
      ∃ m ∈ S, ∃ i, coverageList (quineMcCluskey S n) m = [i] ∧
        t = (quineMcCluskey S n).getD i ⟨[], [], false⟩) ∧
    (∀ m i, m ∈ S → coverageList (quineMcCluskey S n) m = [i] →
      (quineMcCluskey S n).getD i ⟨[], [], false⟩ ∈
        (simplify ⟨S, vars, n, []⟩).essentialPrimeImplicants) := by
  rw [simplify_middle_epis S vars n h0 hfull]
  refine ⟨rfl, essentialPart_mem_iff (quineMcCluskey S n) S, ?_⟩
  intro m i hm hcl
  unfold findEssentialPrimeImplicants
  exact List.mem_append_left _
    (essentialPart_unique_mem (quineMcCluskey S n) S m i hm hcl)

/-- Witness for the amended C2: for minterms `{0, 5, 7}` over three
variables, minterm 0 is uniquely covered by the cube `000` (coverage list
`[0]`), and that implicant is reported. -/
theorem essential_list_amended_witness :
    (quineMcCluskey [0, 5, 7] 3).getD 0 ⟨[], [], false⟩ ∈
      (simplify ⟨[0, 5, 7], ["A", "B", "C"], 3, []⟩).essentialPrimeImplicants :=
  (essential_list_amended [0, 5, 7] ["A", "B", "C"] 3 (by decide) (by decide)).2.2 0 0
    (by decide) (by decide)

/-! ## C4 amended: what the greedy scan actually selects -/

/-- C4 amended.  When the greedy scan reports a candidate, that candidate
is a not-yet-selected implicant with positive remaining coverage, every
eligible implicant before it in the prime-implicant list covers strictly
fewer remaining minterms, and every eligible implicant after it covers at
most as many — i.e. ties are broken by earliest list position, not by
literal count or cube string order; the loop then recurses with the
selected implicant appended and its covered minterms removed from the
remaining set. -/
theorem greedy_select_amended (pis ess add : List Term) (uncovered : List Nat) (b : Term)
    (h : selectBest pis ess add uncovered = some b) :
    ((!includesTerm ess b && !includesTerm add b) = true ∧
      0 < countRemaining b uncovered ∧
      ∃ l1 l2, pis = l1 ++ b :: l2 ∧
        (∀ a ∈ l1, (!includesTerm ess a && !includesTerm add a) = true →
          countRemaining a uncovered < countRemaining b uncovered) ∧
        (∀ a ∈ l2, (!includesTerm ess a && !includesTerm add a) = true →
          countRemaining a uncovered ≤ countRemaining b uncovered)) ∧
    (∀ fuel : Nat, uncovered.isEmpty = false →
      greedyLoop pis ess (fuel + 1) add uncovered =
        greedyLoop pis ess fuel (add ++ [b])
          (uncovered.filter (fun m => !(m ∈ b.minterms)))) := by
  refine ⟨selectBest_some_spec pis ess add uncovered b h, ?_⟩
  intro fuel hunc
  rw [greedyLoop_succ_eq, if_neg (by rw [hunc]; exact Bool.noConfusion), h]

/-- Witness for the amended C4: the first greedy step of the
`{0, 2, 3, 7}` run selects the cube `0-0`, the first maximal candidate in
list order. -/
theorem greedy_select_amended_witness :
    ((!includesTerm [] (⟨['0', '-', '0'], [0, 2], false⟩ : Term) &&
        !includesTerm [] (⟨['0', '-', '0'], [0, 2], false⟩ : Term)) = true ∧
      0 < countRemaining ⟨['0', '-', '0'], [0, 2], false⟩ [0, 2, 3, 7] ∧
      ∃ l1 l2, quineMcCluskey [0, 2, 3, 7] 3 =
          l1 ++ (⟨['0', '-', '0'], [0, 2], false⟩ : Term) :: l2 ∧
        (∀ a ∈ l1, (!includesTerm [] a && !includesTerm [] a) = true →
          countRemaining a [0, 2, 3, 7] <
            countRemaining ⟨['0', '-', '0'], [0, 2], false⟩ [0, 2, 3, 7]) ∧
        (∀ a ∈ l2, (!includesTerm [] a && !includesTerm [] a) = true →
          countRemaining a [0, 2, 3, 7] ≤
            countRemaining ⟨['0', '-', '0'], [0, 2], false⟩ [0, 2, 3, 7])) ∧
    (∀ fuel : Nat, ([0, 2, 3, 7] : List Nat).isEmpty = false →
      greedyLoop (quineMcCluskey [0, 2, 3, 7] 3) [] (fuel + 1) [] [0, 2, 3, 7] =
        greedyLoop (quineMcCluskey [0, 2, 3, 7] 3) [] fuel
          ([] ++ [⟨['0', '-', '0'], [0, 2], false⟩])
          ([0, 2, 3, 7].filter
            (fun m => !(m ∈ (⟨['0', '-', '0'], [0, 2], false⟩ : Term).minterms)))) :=
  greedy_select_amended (quineMcCluskey [0, 2, 3, 7] 3) [] [] [0, 2, 3, 7]
    ⟨['0', '-', '0'], [0, 2], false⟩ (by decide)

/-! ## C3 amended: shape of the returned prime-implicant list -/

theorem countP_set_dash (l : List Char) :
    ∀ i : Nat, i < l.length → l.getD i ' ' ≠ '-' →
      dashCount (l.set i '-') = dashCount l + 1 := by
  induction l with
  | nil => intro i hi; simp at hi
  | cons x xs ih =>
      intro i hi hnd
      cases i with
      | zero =>
          simp only [List.getD_cons_zero] at hnd
          simp [dashCount, List.countP_cons, hnd]
      | succ j =>
          simp only [List.getD_cons_succ] at hnd
          have := ih j (by simpa using hi) hnd
          simp only [List.set_cons_succ, dashCount, List.countP_cons] at this ⊢
          omega

theorem markUsed_binary (terms : List Term) (atts : List (Term × Term)) :
    (markUsed terms atts).map (fun t => t.binary) = terms.map (fun t => t.binary) := by
  unfold markUsed
  rw [List.map_map]
  apply List.map_congr_left
  intro t _
  simp only [Function.comp]
  by_cases hc : (atts.any
      (fun p => (combineBinary p.1.binary p.2.binary).isSome && (p.1 = t ∨ p.2 = t))) = true
  · rw [if_pos hc]
  · rw [if_neg hc]

/-- The structure of the list the merge loop emits: a duplicate-free block
followed by the final pass's unused cubes twice (the second copy being the
post-loop re-push after the break). -/
theorem qmLoop_dedup :
    ∀ (fuel : Nat) (terms : List Term) (g : Nat),
      (∀ t ∈ terms, dashCount t.binary = g) →
      ((terms.map (fun t => t.binary)).Nodup) →
      ∃ A B, qmLoop fuel terms = A ++ B ++ B ∧
        (((A ++ B).map (fun t => t.binary)).Nodup) ∧
        (∀ t ∈ A ++ B, g ≤ dashCount t.binary) := by
  intro fuel
  induction fuel with
  | zero =>
      intro terms g hdash hnodup
      refine ⟨terms.filter (fun t => !t.used), [], by simp [qmLoop], ?_, ?_⟩
      · rw [List.append_nil]
        exact List.Nodup.sublist ((List.filter_sublist terms).map _) hnodup
      · intro t ht
        rw [List.append_nil] at ht
        exact Nat.le_of_eq (hdash t (List.mem_filter.mp ht).1).symm
  | succ f ih =>
      intro terms g hdash hnodup
      have hmark : ∀ t ∈ (qmStep terms).1.filter (fun t => !t.used),
          dashCount t.binary = g := by
        intro t ht
        obtain ⟨t0, ht0, hB, _⟩ :=
          markUsed_mem_inv terms _ t (List.mem_filter.mp ht).1
        rw [hB]
        exact hdash t0 ht0
      have hmarknodup :
          (((qmStep terms).1.filter (fun t => !t.used)).map (fun t => t.binary)).Nodup := by
        apply List.Nodup.sublist ((List.filter_sublist _).map _)
        show (((markUsed terms (attempts (groupByOnes terms)))).map
          (fun t => t.binary)).Nodup
        rw [markUsed_binary]
        exact hnodup
      rw [qmLoop_succ_eq]
      by_cases he : (qmStep terms).2.isEmpty
      · rw [if_pos he]
        refine ⟨[], (qmStep terms).1.filter (fun t => !t.used), by simp, ?_, ?_⟩
        · rw [List.nil_append]
          exact hmarknodup
        · intro t ht
          rw [List.nil_append] at ht
          exact Nat.le_of_eq (hmark t ht).symm
      · rw [if_neg he]
        have hnewdash : ∀ t ∈ (qmStep terms).2, dashCount t.binary = g + 1 := by
          intro t ht
          obtain ⟨pr, hpr, hc, _, _⟩ := buildNew_sound _ t ht
          obtain ⟨i, hi, _, hcset, _, hda, _, _⟩ :=
            combineBinary_some_inv pr.1.binary pr.2.binary t.binary hc
          rw [hcset, countP_set_dash pr.1.binary i hi hda,
            hdash pr.1 (attempts_mem_terms terms pr hpr).1]
        obtain ⟨A', B', hsp, hnd', hge'⟩ :=
          ih (qmStep terms).2 (g + 1) hnewdash (buildNew_nodup _)
        refine ⟨(qmStep terms).1.filter (fun t => !t.used) ++ A', B', ?_, ?_, ?_⟩
        · rw [hsp, List.append_assoc, List.append_assoc, List.append_assoc]
        · rw [List.append_assoc, List.map_append]
          apply List.Nodup.append hmarknodup
          · exact hnd'
          · intro x hx hx'
            simp only [List.mem_map] at hx hx'
            obtain ⟨t1, ht1, hb1⟩ := hx
            obtain ⟨t2, ht2, hb2⟩ := hx'
            have hd1 : dashCount x = g := by rw [← hb1]; exact hmark t1 ht1
            have hd2 : g + 1 ≤ dashCount x := by rw [← hb2]; exact hge' t2 ht2
            omega
        · intro t ht
          rw [List.append_assoc, List.mem_append] at ht
          rcases ht with ht | ht
          · exact Nat.le_of_eq (hmark t ht).symm
          · exact Nat.le_of_succ_le (hge' t ht)

/-- C3 amended.  For a duplicate-free in-range minterm list, the
prime-implicant list returned by `quineMcCluskey` is a duplicate-free
block followed by the final pass's unused cubes appended twice: entries
are deduplicated by cube identity except for that duplicated final
block. -/
theorem quineMcCluskey_dedup_amended (minterms : List Nat) (n : Nat)
    (hnd : minterms.Nodup) (hb : ∀ m ∈ minterms, m < 2 ^ n) :
    ∃ A B, quineMcCluskey minterms n = A ++ B ++ B ∧
      (((A ++ B).map (fun t => t.binary)).Nodup) := by
  obtain ⟨A, B, hsp, hnodup, _⟩ := qmLoop_dedup n
    (minterms.map (fun m => ⟨natToBits n m, [m], false⟩)) 0
    (by
      intro t ht
      simp only [List.mem_map] at ht
      obtain ⟨m, _, rfl⟩ := ht
      exact natToBits_dash0 n m)
    (by
      rw [List.map_map]
      apply List.Nodup.map_on ?_ hnd
      intro m1 h1 m2 h2 heq
      simp only [Function.comp] at heq
      exact natToBits_inj n m1 m2 (hb m1 h1) (hb m2 h2) heq)
  exact ⟨A, B, hsp, hnodup⟩

/-- Witness for the amended C3: the `quineMcCluskey([0], 2)` run splits as
`[] ++ [00] ++ [00]`. -/
theorem quineMcCluskey_dedup_amended_witness :
    ∃ A B, quineMcCluskey [0] 2 = A ++ B ++ B ∧
      (((A ++ B).map (fun t => t.binary)).Nodup) :=
  quineMcCluskey_dedup_amended [0] 2 (by decide) (by decide)

end KmapSolver
